import Mathlib

/-!
Verification development for the MLQueue backend (Go, gin + gorm + Redis).

The definitions below are a shallow embedding of the backend's core logic:

* the V2 hierarchy (TrainingUnit / TrainingQueue) handlers in
  `internal/handlers` (queue create / batch create / update / delete /
  reorder, unit update / sync / heartbeat, connection-status coercion);
* the V1 task pipeline: task handler (`task_handler.go`), the Redis-backed
  priority queue (`internal/queue`), and the worker loop;
* the sliding-window rate limiter (`internal/middleware/ratelimit.go`).

Time is modelled by explicit natural/integer timestamps, the Postgres store
by in-memory lists of rows, and the Redis sorted set by a list of
(member, score) entries with the (score, member) lexicographic order.
Database writes that the handlers perform sequentially are modelled as a
sequential state transformation; each handler's early-return error paths
return the state unchanged.
-/

namespace MLQueue

/-- Opaque JSON blob (gorm's `models.JSONB`): field name to opaquely
serialized value.  No claim inspects blob contents, so values are kept as
plain strings. -/
abbrev JSONB := List (String × String)

/-! ## V2 data model (`internal/models/task.go`, V2 part) -/

/-- `models.TrainingUnit`. -/
structure TrainingUnit where
  id : String
  groupId : String
  name : String
  description : String
  config : JSONB
  version : Int
  status : String
  connectionStatus : String
  lastHeartbeat : Option Nat
  userId : String
deriving Repr, DecidableEq

/-- `models.TrainingQueue`. -/
structure TrainingQueue where
  id : String
  unitId : String
  name : String
  parameters : JSONB
  order : Int
  status : String
  startedAt : Option Nat
  completedAt : Option Nat
  result : JSONB
  metrics : JSONB
  errorMsg : String
  createdBy : String
  userId : String
deriving Repr, DecidableEq

/-- The persisted state of one training unit together with its queue rows.
Every V2 handler loads exactly one unit (by id and owner) and touches only
that unit and queue rows, so one unit plus its rows is the footprint of all
operations the claims quantify over. -/
structure V2State where
  unit : TrainingUnit
  queues : List TrainingQueue
deriving Repr, DecidableEq

/-- A fresh training unit as `CreateTrainingUnit` persists it: version 1,
status `idle`; `connection_status` and `last_heartbeat` take the gorm
column defaults `'disconnected'` and NULL. -/
def initialUnit (uid gid owner nm ds : String) (cfg : JSONB) : TrainingUnit :=
  { id := uid, groupId := gid, name := nm, description := ds, config := cfg
    version := 1, status := "idle", connectionStatus := "disconnected"
    lastHeartbeat := none, userId := owner }

/-- State right after `CreateTrainingUnit`: the new unit owns no queues. -/
def v2Init (uid gid owner nm ds : String) (cfg : JSONB) : V2State :=
  { unit := initialUnit uid gid owner nm ds cfg, queues := [] }

/-- The queue rows of the unit (`WHERE unit_id = ?`). -/
def unitQueues (s : V2State) : List TrainingQueue :=
  s.queues.filter (fun q => q.unitId = s.unit.id)

/-- `COALESCE(MAX("order"), -1)` over a list of queue rows. -/
def maxOrderOf (qs : List TrainingQueue) : Int :=
  match qs.map (fun q => q.order) with
  | [] => -1
  | o :: os => os.foldl max o

/-- The `order` column of the row with the given id (first match of gorm's
`First`), if any. -/
def orderOfId (qs : List TrainingQueue) (qid : String) : Option Int :=
  (qs.find? (fun q => q.id = qid)).map (fun q => q.order)

/-- The `status` column of the row with the given id, if any. -/
def statusOfId (qs : List TrainingQueue) (qid : String) : Option String :=
  (qs.find? (fun q => q.id = qid)).map (fun q => q.status)

/-! ## V2 queue handlers (`QueueHandlerV2`) -/

/-- `CreateTrainingQueue`: compute `maxOrder` over the unit's rows, append a
`pending` row with `order = maxOrder + 1`, then bump the unit's version.  A
failed insert (duplicate primary key) makes the handler return before the
version bump, leaving the state unchanged. -/
def createTrainingQueue (s : V2State) (qid nm : String) (ps : JSONB)
    (createdBy : String) : V2State × Option TrainingQueue :=
  if s.queues.any (fun q => q.id = qid) then (s, none)
  else
    let cb := if createdBy = "" then "web" else createdBy
    let q : TrainingQueue :=
      { id := qid, unitId := s.unit.id, name := nm, parameters := ps
        order := maxOrderOf (unitQueues s) + 1, status := "pending"
        startedAt := none, completedAt := none, result := [], metrics := []
        errorMsg := "", createdBy := cb, userId := s.unit.userId }
    ({ unit := { s.unit with version := s.unit.version + 1 }
       queues := s.queues ++ [q] }, some q)

/-- The row `BatchCreateQueues` inserts for one request item. -/
def batchRow (unitId owner cb qid nm : String) (ps : JSONB) (ord : Int) :
    TrainingQueue :=
  { id := qid, unitId := unitId, name := nm, parameters := ps
    order := ord, status := "pending", startedAt := none
    completedAt := none, result := [], metrics := [], errorMsg := ""
    createdBy := cb, userId := owner }

/-- The per-item loop of `BatchCreateQueues`: the i-th request item gets
`order = maxOrder + 1 + i` (the running `ord` argument folds the index into
the base).  A failed insert is skipped with `continue`, but the loop index
still advances. -/
def batchLoop (unitId owner cb : String) (qs : List TrainingQueue)
    (ord : Int) : List (String × String × JSONB) → List TrainingQueue × List String
  | [] => (qs, [])
  | (qid, nm, ps) :: rest =>
    if qs.any (fun q => q.id = qid) then
      batchLoop unitId owner cb qs (ord + 1) rest
    else
      let r := batchLoop unitId owner cb
        (qs ++ [batchRow unitId owner cb qid nm ps ord]) (ord + 1) rest
      (r.1, qid :: r.2)

/-- `BatchCreateQueues`: one version bump for the whole batch, after the
loop, regardless of how many items were created. -/
def batchCreateQueues (s : V2State) (items : List (String × String × JSONB))
    (createdBy : String) : V2State × List String :=
  let cb := if createdBy = "" then "web" else createdBy
  let r := batchLoop s.unit.id s.unit.userId cb s.queues
      (maxOrderOf (unitQueues s) + 1) items
  ({ unit := { s.unit with version := s.unit.version + 1 }, queues := r.1 }, r.2)

/-- `UpdateTrainingQueue`: rejected for `running` and `completed` rows;
otherwise the name (if nonempty) and parameters (if present) are updated and
the parent unit's version is bumped by one. -/
def updateTrainingQueue (s : V2State) (qid nm : String) (ps : Option JSONB) :
    V2State :=
  match s.queues.find? (fun q => q.id = qid) with
  | none => s
  | some q =>
    if q.status = "running" then s
    else if q.status = "completed" then s
    else
      { unit := { s.unit with version := s.unit.version + 1 }
        queues := s.queues.map (fun x =>
          if x.id = qid then
            { x with name := if nm = "" then x.name else nm
                     parameters := ps.getD x.parameters }
          else x) }

/-- `DeleteTrainingQueue`: rejected for `running` rows; otherwise the row is
deleted (no order compaction) and the unit's version is bumped by one. -/
def deleteTrainingQueue (s : V2State) (qid : String) : V2State :=
  match s.queues.find? (fun q => q.id = qid) with
  | none => s
  | some q =>
    if q.status = "running" then s
    else
      { unit := { s.unit with version := s.unit.version + 1 }
        queues := s.queues.filter (fun x => ¬ (x.id = qid)) }

/-- `StartQueue`: only from `pending`; stamps `started_at` and sets the
parent unit's status to `running` (the version is not touched). -/
def startQueue (s : V2State) (qid : String) (now : Nat) : V2State :=
  match s.queues.find? (fun q => q.id = qid) with
  | none => s
  | some q =>
    if q.status = "pending" then
      { unit := { s.unit with status := "running" }
        queues := s.queues.map (fun x =>
          if x.id = qid then
            { x with status := "running", startedAt := some now }
          else x) }
    else s

/-- `CompleteQueue`: no check of the prior status; stamps `completed_at` and
writes the result and metrics blobs. -/
def completeQueue (s : V2State) (qid : String) (now : Nat) (res met : JSONB) :
    V2State :=
  match s.queues.find? (fun q => q.id = qid) with
  | none => s
  | some _ =>
    { s with queues := s.queues.map (fun x =>
        if x.id = qid then
          { x with status := "completed", completedAt := some now
                   result := res, metrics := met }
        else x) }

/-- `FailQueue`: stamps `completed_at` and writes `error_msg`. -/
def failQueue (s : V2State) (qid : String) (now : Nat) (msg : String) :
    V2State :=
  match s.queues.find? (fun q => q.id = qid) with
  | none => s
  | some _ =>
    { s with queues := s.queues.map (fun x =>
        if x.id = qid then
          { x with status := "failed", completedAt := some now
                   errorMsg := msg }
        else x) }

/-- `UpdateTrainingUnit`: name updated when nonempty, description
unconditionally, config when present; the version is incremented by one. -/
def updateTrainingUnit (s : V2State) (nm ds : String) (cfg : Option JSONB) :
    V2State :=
  { s with unit :=
      { s.unit with
          name := if nm = "" then s.unit.name else nm
          description := ds
          config := cfg.getD s.unit.config
          version := s.unit.version + 1 } }

/-- `Heartbeat`: writes `last_heartbeat = now` and
`connection_status = connected`. -/
def heartbeatUnit (now : Nat) (u : TrainingUnit) : TrainingUnit :=
  { u with lastHeartbeat := some now, connectionStatus := "connected" }

/-- `checkConnectionStatus` as the read paths surface the unit: no heartbeat
on record, or a heartbeat strictly older than 10 seconds, shows as
`disconnected`; a heartbeat at most 10 seconds old leaves the row as it
was. -/
def checkConnectionStatus (now : Nat) (u : TrainingUnit) : TrainingUnit :=
  match u.lastHeartbeat with
  | none => { u with connectionStatus := "disconnected" }
  | some t =>
    if 10 < now - t then { u with connectionStatus := "disconnected" } else u

/-- The write `checkConnectionStatus` performs on the store: only in the
stale-heartbeat branch, and only when the stored status is not already
`disconnected` (the NULL-heartbeat branch coerces the surfaced copy without
persisting). -/
def checkConnectionPersist (now : Nat) (u : TrainingUnit) : TrainingUnit :=
  match u.lastHeartbeat with
  | none => u
  | some t =>
    if 10 < now - t then
      if u.connectionStatus = "disconnected" then u
      else { u with connectionStatus := "disconnected" }
    else u

/-! ## The V2 sync endpoint (`SyncTrainingUnit`) -/

/-- The columns of the `training_queues` table, from the gorm model
`models.TrainingQueue`. -/
def trainingQueueColumns : List String :=
  ["id", "unit_id", "name", "parameters", "order", "status", "started_at",
   "completed_at", "result", "metrics", "error_msg", "created_by",
   "created_at", "updated_at", "user_id"]

/-- The ORDER BY columns `SyncTrainingUnit` requests:
`Order("priority DESC, created_at ASC")`. -/
def syncOrderByColumns : List String := ["priority", "created_at"]

/-- The queue query issued by `SyncTrainingUnit`.  Postgres rejects an ORDER
BY that names a column the table lacks, so the query errors out; the
valid-clause branch would return the rows sorted by the clause, but it is
never taken here because `training_queues` has no `priority` column (there
is nothing to sort by, so that dead branch returns the rows as stored). -/
def syncQueueQuery (qs : List TrainingQueue) : Except String (List TrainingQueue) :=
  if syncOrderByColumns.all (fun c => trainingQueueColumns.contains c) then
    Except.ok qs
  else Except.error "column priority does not exist"

/-- Shape of the sync response: `{need_sync, cloud_version, unit, queues}`.
The `unit` field is the row exactly as `First` fetched it. -/
structure SyncResponse where
  needSync : Bool
  cloudVersion : Int
  unit : TrainingUnit
  queues : List TrainingQueue
deriving Repr, DecidableEq

/-- `SyncTrainingUnit`: `need_sync = (version > client_version)`; the unit
is returned as stored -- unlike the get and list handlers, sync never calls
`checkConnectionStatus`, so no liveness coercion is applied to the surfaced
`connection_status`; the queue query's error is ignored by the handler
(`database.DB.Where(...).Find(&queues)` with no error check), so on error
the response carries the untouched empty slice. -/
def syncTrainingUnit (s : V2State) (clientVersion : Int) : SyncResponse :=
  { needSync := s.unit.version > clientVersion
    cloudVersion := s.unit.version
    unit := s.unit
    queues :=
      match syncQueueQuery (unitQueues s) with
      | Except.ok l => l
      | Except.error _ => [] }

/-- The ordering every other V2 queue read path uses, and the one the spec
designates for sync: `Order("\"order\" ASC")` as in `ListTrainingQueues`
(insertion sort by the `order` column, stable). -/
def sortQueuesByOrderAsc (qs : List TrainingQueue) : List TrainingQueue :=
  qs.foldr (fun q acc => acc.takeWhile (fun x => x.order < q.order) ++
    q :: acc.dropWhile (fun x => x.order < q.order)) []

/-! ## V2 reorder (`ReorderQueues`) -/

/-- The statuses `ReorderQueues` counts when computing the first order value
for the pending block: `status IN ('running', 'completed', 'failed')`
(`cancelled` is not in the list). -/
def reorderNonPendingStatuses : List String := ["running", "completed", "failed"]

/-- The number the handler assigns as the first new order value. -/
def reorderStartCount (s : V2State) : Nat :=
  (s.queues.filter (fun q =>
    q.unitId = s.unit.id && reorderNonPendingStatuses.contains q.status)).length

/-- One `Save` of the reorder loop: the row with the supplied id gets the
given order value. -/
def setOrderIfId (qid : String) (o : Int) (q : TrainingQueue) : TrainingQueue :=
  if q.id = qid then { q with order := o } else q

/-- The reorder loop: the i-th supplied id receives `startOrder + i`; ids
whose row was not fetched are skipped but still advance the index (here the
index is folded into the running `startOrder`). -/
def reorderLoop (qs : List TrainingQueue) (startOrder : Int) :
    List String → List TrainingQueue
  | [] => qs
  | qid :: rest =>
    reorderLoop (qs.map (setOrderIfId qid startOrder)) (startOrder + 1) rest

/-- `ReorderQueues`: fetch the supplied rows, reject if one belongs to a
different unit or is not `pending`, then assign
`order = nonPendingCount + i` to the i-th supplied id and bump the unit's
version by one. -/
def reorderQueues (s : V2State) (queueIDs : List String) :
    Except String V2State :=
  let fetched := s.queues.filter (fun q => queueIDs.contains q.id)
  if fetched.any (fun q => ¬ (q.unitId = s.unit.id)) then
    Except.error "queue from another unit"
  else if fetched.any (fun q => ¬ (q.status = "pending")) then
    Except.error "INVALID_QUEUE_STATUS"
  else
    Except.ok
      { unit := { s.unit with version := s.unit.version + 1 }
        queues := reorderLoop s.queues (Int.ofNat (reorderStartCount s)) queueIDs }

/-! ## V2 operations as a transition system (for the version-cursor and
status invariants) -/

/-- One V2 API call against the unit.  Constructors carry the parsed request
payload; calls whose body fails binding leave the state unchanged and are
omitted. -/
inductive V2Op where
  | createQ (qid nm : String) (ps : JSONB) (cb : String)
  | batchQ (items : List (String × String × JSONB)) (cb : String)
  | updateQ (qid nm : String) (ps : Option JSONB)
  | deleteQ (qid : String)
  | reorderQ (ids : List String)
  | updateU (nm ds : String) (cfg : Option JSONB)
  | getU (now : Nat)
  | listQ (now : Nat)
  | syncU (cv : Int)
  | hb (now : Nat)
  | startQ (qid : String) (now : Nat)
  | completeQ (qid : String) (now : Nat) (res met : JSONB)
  | failQ (qid : String) (now : Nat) (msg : String)

/-- Effect of one V2 call on the persisted state.  Handler error paths
(row not found, status guard, failed insert, rejected reorder) leave the
state unchanged; `GetTrainingUnit` and `ListTrainingUnits` persist the lazy
connection-status coercion. -/
def applyV2 (s : V2State) : V2Op → V2State
  | V2Op.createQ qid nm ps cb => (createTrainingQueue s qid nm ps cb).1
  | V2Op.batchQ items cb => (batchCreateQueues s items cb).1
  | V2Op.updateQ qid nm ps => updateTrainingQueue s qid nm ps
  | V2Op.deleteQ qid => deleteTrainingQueue s qid
  | V2Op.reorderQ ids =>
    match reorderQueues s ids with
    | Except.ok s2 => s2
    | Except.error _ => s
  | V2Op.updateU nm ds cfg => updateTrainingUnit s nm ds cfg
  | V2Op.getU now => { s with unit := checkConnectionPersist now s.unit }
  | V2Op.listQ now => { s with unit := checkConnectionPersist now s.unit }
  | V2Op.syncU _ => s
  | V2Op.hb now => { s with unit := heartbeatUnit now s.unit }
  | V2Op.startQ qid now => startQueue s qid now
  | V2Op.completeQ qid now res met => completeQueue s qid now res met
  | V2Op.failQ qid now msg => failQueue s qid now msg

/-- Run a sequence of V2 calls. -/
def applyV2All (s : V2State) (ops : List V2Op) : V2State :=
  ops.foldl applyV2 s

/-! ## Heartbeat / liveness trace model

Only `Heartbeat` and the `checkConnectionStatus` sweep write the
`connection_status` / `last_heartbeat` columns; every other handler carries
them through unchanged, so the liveness claims are settled over traces of
those two events with non-decreasing wall-clock times. -/

/-- A connection-status-relevant event on one unit. -/
inductive UnitEvent where
  | hbE (t : Nat)
  | checkE (t : Nat)

/-- Wall-clock time of the event. -/
def eventTime : UnitEvent → Nat
  | UnitEvent.hbE t => t
  | UnitEvent.checkE t => t

/-- Persisted effect of one event. -/
def unitStep (u : TrainingUnit) : UnitEvent → TrainingUnit
  | UnitEvent.hbE t => heartbeatUnit t u
  | UnitEvent.checkE t => checkConnectionPersist t u

/-- Run a trace of events. -/
def runUnit (u : TrainingUnit) (es : List UnitEvent) : TrainingUnit :=
  es.foldl unitStep u

/-- Event times are non-decreasing and bounded below by `lb`. -/
def TimesMono (lb : Nat) : List UnitEvent → Prop
  | [] => True
  | e :: es => lb ≤ eventTime e ∧ TimesMono (eventTime e) es

/-- Time of the last event of the trace (`lb` for the empty trace). -/
def lastTime (lb : Nat) : List UnitEvent → Nat
  | [] => lb
  | e :: es => lastTime (eventTime e) es

/-! ## V1 data model (`internal/models/task.go`) and queue index
(`internal/queue/manager.go`) -/

/-- The `result` blob `UploadResult` persists: the client's `result` map,
with the optional `artifacts` map stored under its own key. -/
structure ResultBlob where
  fields : JSONB
  artifacts : Option JSONB
deriving Repr, DecidableEq

/-- `models.Task`. -/
structure Task where
  id : String
  name : String
  config : JSONB
  priority : Int
  status : String
  metadata : JSONB
  result : Option ResultBlob
  errorMessage : String
  startedAt : Option Nat
  completedAt : Option Nat
  userId : String
deriving Repr, DecidableEq

/-- A member of the Redis sorted set `mlqueue:tasks`. -/
structure ZEntry where
  member : String
  score : Int
deriving Repr, DecidableEq

/-- Lexicographic order on character lists, by character code. -/
def charListLt : List Char → List Char → Bool
  | [], [] => false
  | [], _ :: _ => true
  | _ :: _, [] => false
  | a :: as, b :: bs =>
    a.toNat < b.toNat || (a.toNat = b.toNat && charListLt as bs)

/-- Lexicographic order on strings (Redis's binary member order). -/
def strLt (a b : String) : Bool := charListLt a.data b.data

/-- Redis sorted-set order: by score, ties by member (lexicographic). -/
def zLess (a b : ZEntry) : Bool :=
  a.score < b.score || (a.score = b.score && strLt a.member b.member)

/-- `ZADD`: members are unique; re-adding replaces the score. -/
def zAdd (z : List ZEntry) (m : String) (score : Int) : List ZEntry :=
  z.filter (fun e => ¬ (e.member = m)) ++ [⟨m, score⟩]

/-- `ZREM`. -/
def zRem (z : List ZEntry) (m : String) : List ZEntry :=
  z.filter (fun e => ¬ (e.member = m))

/-- Sorted-set membership. -/
def zMember (z : List ZEntry) (m : String) : Bool :=
  z.any (fun e => e.member = m)

/-- The lowest-ranked entry (what `BZPOPMIN` returns). -/
def zMinEntry : List ZEntry → Option ZEntry
  | [] => none
  | e :: es =>
    match zMinEntry es with
    | none => some e
    | some m => some (if zLess e m then e else m)

/-- `ZRANK` of an entry: the number of entries strictly before it in the
(score, member) order; with unique members this is its index in sorted
order. -/
def zrankNat (z : List ZEntry) (e : ZEntry) : Nat :=
  (z.filter (fun x => zLess x e)).length

/-- `Manager.GetQueuePosition`: `-1` when `ZRANK` reports the member absent,
otherwise the rank plus one. -/
def getQueuePosition (z : List ZEntry) (m : String) : Int :=
  match z.find? (fun e => e.member = m) with
  | none => -1
  | some e => Int.ofNat (zrankNat z e) + 1

/-- V1 server state: the task rows, the priority index `mlqueue:tasks`, the
companion membership set `mlqueue:tasks:set`, and the worker pipeline --
task ids popped from the index but not yet marked running (`popped`), and
ids a worker has marked running and not yet completed (`inFlight`). -/
structure V1State where
  tasks : List Task
  zset : List ZEntry
  memberSet : List String
  popped : List String
  inFlight : List String
deriving Repr, DecidableEq

/-- The empty server state. -/
def v1Init : V1State := { tasks := [], zset := [], memberSet := [], popped := [], inFlight := [] }

/-- Status of a task row (first match of gorm's `First`). -/
def statusOf (s : V1State) (taskId : String) : Option String :=
  (s.tasks.find? (fun t => t.id = taskId)).map (fun t => t.status)

/-- `completed_at` of a task row. -/
def completedAtOf (s : V1State) (taskId : String) : Option (Option Nat) :=
  (s.tasks.find? (fun t => t.id = taskId)).map (fun t => t.completedAt)

/-- `Manager.EnqueueTask`: `ZADD` with score `-priority` plus `SADD` into
the membership set. -/
def enqueueTask (s : V1State) (taskId : String) (priority : Int) : V1State :=
  { s with
      zset := zAdd s.zset taskId (-priority)
      memberSet :=
        if s.memberSet.contains taskId then s.memberSet
        else s.memberSet ++ [taskId] }

/-- A minimal view of a handler's JSON reply: HTTP status, the `success`
flag, and the machine-readable `code` when one is sent. -/
structure V1Resp where
  httpStatus : Nat
  success : Bool
  code : Option String
deriving Repr, DecidableEq

/-- `CreateTask`: insert the row with `status = queued`, enqueue it, and
report the queue position.  A failed insert (duplicate id) returns 500
before touching the index. -/
def createTask (s : V1State) (taskId nm : String) (cfg : JSONB)
    (priority : Int) (meta : JSONB) : V1State × Option Int :=
  if s.tasks.any (fun t => t.id = taskId) then (s, none)
  else
    let t : Task :=
      { id := taskId, name := nm, config := cfg, priority := priority
        status := "queued", metadata := meta, result := none
        errorMessage := "", startedAt := none, completedAt := none
        userId := "" }
    let s2 := enqueueTask { s with tasks := s.tasks ++ [t] } taskId priority
    (s2, some (getQueuePosition s2.zset taskId))

/-- The row update `CancelTask` persists. -/
def setCancelled (taskId reason : String) (x : Task) : Task :=
  if x.id = taskId then
    { x with status := "cancelled", errorMessage := "user cancel: " ++ reason }
  else x

/-- The row update `UploadResult` persists. -/
def setUploaded (taskId : String) (res : JSONB) (art : Option JSONB)
    (now : Nat) (x : Task) : Task :=
  if x.id = taskId then
    { x with result := some { fields := res, artifacts := art }
             status := "completed", completedAt := some now }
  else x

/-- The row update of the worker's pickup. -/
def setRunning (taskId : String) (now : Nat) (x : Task) : Task :=
  if x.id = taskId then
    { x with status := "running", startedAt := some now }
  else x

/-- The row update of the worker's completion. -/
def setWorkerDone (taskId : String) (now : Nat) (w : Nat) (x : Task) : Task :=
  if x.id = taskId then
    { x with status := "completed", completedAt := some now
             result := some
               { fields := [("completed_by_worker", toString w),
                  ("duration_seconds", toString (now - x.startedAt.getD now))]
                 artifacts := none } }
  else x

/-- The body of `CancelTask` after a successful bind: 404 when the row is
missing, 400 `TASK_ALREADY_COMPLETED` when already `completed`/`cancelled`,
otherwise persist `cancelled` with the reason and remove the id from the
index and the membership set. -/
def cancelTaskCore (s : V1State) (taskId reason : String) : V1State × V1Resp :=
  match s.tasks.find? (fun t => t.id = taskId) with
  | none => (s, { httpStatus := 404, success := false, code := some "TASK_NOT_FOUND" })
  | some t =>
    if t.status = "completed" || t.status = "cancelled" then
      (s, { httpStatus := 400, success := false, code := some "TASK_ALREADY_COMPLETED" })
    else
      ({ s with
          tasks := s.tasks.map (setCancelled taskId reason)
          zset := zRem s.zset taskId
          memberSet := s.memberSet.filter (fun m => ¬ (m = taskId)) },
       { httpStatus := 200, success := true, code := none })

/-- The `CancelTask` handler: when `ShouldBindJSON` fails the handler does a
bare `return` -- no `c.JSON` call, so no response body or code is written --
and no store or index access has happened yet. -/
def cancelTaskHandler (s : V1State) (taskId : String) (body : Option String) :
    V1State × Option V1Resp :=
  match body with
  | none => (s, none)
  | some reason =>
    let r := cancelTaskCore s taskId reason
    (r.1, some r.2)

/-- `UploadResult`: 404 when the row is missing; otherwise -- with no check
of the prior status -- write the result blob (artifacts merged in), set
`status = completed` and stamp `completed_at`.  The queue index and the
membership set are not touched. -/
def uploadResult (s : V1State) (taskId : String) (res : JSONB)
    (art : Option JSONB) (now : Nat) : V1State × V1Resp :=
  match s.tasks.find? (fun t => t.id = taskId) with
  | none => (s, { httpStatus := 404, success := false, code := some "TASK_NOT_FOUND" })
  | some _ =>
    ({ s with tasks := s.tasks.map (setUploaded taskId res art now) },
     { httpStatus := 200, success := true, code := none })

/-- The worker's `BZPOPMIN`: consume the lowest-ranked member of the index.
The popped id sits in `popped` until the worker loads the row. -/
def popTask (s : V1State) : V1State :=
  match zMinEntry s.zset with
  | none => s
  | some e =>
    { s with zset := zRem s.zset e.member, popped := s.popped ++ [e.member] }

/-- The first half of `processTask`: load the row by id -- on a missing row
log and continue -- then set `status = running` and stamp `started_at`. -/
def loadTask (s : V1State) (taskId : String) (now : Nat) : V1State :=
  if s.popped.contains taskId then
    match s.tasks.find? (fun t => t.id = taskId) with
    | none => { s with popped := s.popped.filter (fun m => ¬ (m = taskId)) }
    | some _ =>
      { s with
          popped := s.popped.filter (fun m => ¬ (m = taskId))
          inFlight := s.inFlight ++ [taskId]
          tasks := s.tasks.map (setRunning taskId now) }
  else s

/-- The second half of `processTask`: after the simulated work, set
`status = completed`, stamp `completed_at`, write the worker's result blob
and remove the id from the membership set (the sorted set was already
consumed by the pop). -/
def completeTask (s : V1State) (taskId : String) (now : Nat) (workerId : Nat) :
    V1State :=
  if s.inFlight.contains taskId then
    { s with
        inFlight := s.inFlight.filter (fun m => ¬ (m = taskId))
        memberSet := s.memberSet.filter (fun m => ¬ (m = taskId))
        tasks := s.tasks.map (setWorkerDone taskId now workerId) }
  else s

/-- One V1 operation of the kind claim C3 ranges over: create, worker
pickup (pop then load) and completion, cancel, upload-result.  The pop and
the load are separate steps because the cancel and upload handlers run
concurrently with the worker and can interleave between them. -/
inductive V1Op where
  | create (taskId nm : String) (cfg : JSONB) (priority : Int) (meta : JSONB)
  | pop
  | load (taskId : String) (now : Nat)
  | complete (taskId : String) (now : Nat) (workerId : Nat)
  | cancel (taskId reason : String)
  | upload (taskId : String) (res : JSONB) (art : Option JSONB) (now : Nat)

/-- Effect of one V1 operation on the persisted state. -/
def v1Step (s : V1State) : V1Op → V1State
  | V1Op.create taskId nm cfg p meta => (createTask s taskId nm cfg p meta).1
  | V1Op.pop => popTask s
  | V1Op.load taskId now => loadTask s taskId now
  | V1Op.complete taskId now w => completeTask s taskId now w
  | V1Op.cancel taskId reason => (cancelTaskCore s taskId reason).1
  | V1Op.upload taskId res art now => (uploadResult s taskId res art now).1

/-- Run a sequence of V1 operations. -/
def v1Run (s : V1State) (ops : List V1Op) : V1State :=
  ops.foldl v1Step s

/-- The status DAG of the spec:
`queued → running → (completed | failed)` plus `(queued | running) → cancelled`. -/
def dagEdge (a b : String) : Bool :=
  (a = "queued" && b = "running") ||
  (a = "running" && b = "completed") ||
  (a = "running" && b = "failed") ||
  (a = "queued" && b = "cancelled") ||
  (a = "running" && b = "cancelled")

/-- The persisted transitions the code actually produces: the DAG edges,
plus a transition into `completed` from any status (`UploadResult` and the
worker's unconditional completion), plus `completed → running` and
`cancelled → running` (a popped task can be completed-by-upload or
cancelled before the worker loads and runs it). -/
def v1Allowed (a b : String) : Bool :=
  a = b || dagEdge a b || b = "completed" ||
  ((a = "completed" || a = "cancelled") && b = "running")

/-! ## Sliding-window rate limiter (`internal/middleware/ratelimit.go`) -/

/-- The expiry `checkRateLimit` performs:
`ZREMRANGEBYSCORE key 0 (now-60)` removes every recorded timestamp with
score at most `now - 60` (the bound is inclusive), keeping those strictly
newer. -/
def expireEntries (entries : List Int) (now : Int) : List Int :=
  entries.filter (fun sc => decide (now - 60 < sc))

/-- The expiry as the spec words it -- "expire entries older than now-60s",
i.e. remove only timestamps strictly below `now - 60`.  Kept separately to
compare with the source's inclusive bound. -/
def specExpireOlderThan (entries : List Int) (now : Int) : List Int :=
  entries.filter (fun sc => decide (now - 60 ≤ sc))

/-- `checkRateLimit`: expire, count, reject when the count has reached the
limit, otherwise record the request's own timestamp.  (The key's TTL
refresh to window + 1 minute only discards entries that the score expiry
would discard at any later call, so it is not modelled.) -/
def checkRateLimit (entries : List Int) (limit : Nat) (now : Int) :
    Bool × List Int :=
  let kept := expireEntries entries now
  if limit ≤ kept.length then (false, kept) else (true, kept ++ [now])

/-- The middleware's limit selection: the batch limit on batch-flagged
endpoints, else the premium limit for tier `premium`, else the standard
limit. -/
def selectLimit (isBatch : Bool) (tier : String) (batchL premiumL standardL : Nat) : Nat :=
  if isBatch then batchL
  else if tier = "premium" then premiumL
  else standardL

/-- `RateLimitMiddleware`'s reply when `checkRateLimit` rejects: HTTP 429
with code `RATE_LIMIT_EXCEEDED`; an allowed request gets no reply from the
middleware (the chain continues). -/
def rateLimitReply (allowed : Bool) : Option (Nat × String) :=
  if allowed then none else some (429, "RATE_LIMIT_EXCEEDED")

/-- Process a sequence of requests against one rate-limit key, returning
each request's (time, accepted) outcome. -/
def runRL (limit : Nat) : List Int → List Int → List (Int × Bool)
  | _, [] => []
  | entries, t :: ts =>
    let r := checkRateLimit entries limit t
    (t, r.1) :: runRL limit r.2 ts

/-- Number of accepted requests whose time falls in the window
`[T, T + 60)`. -/
def countAcceptedIn (T : Int) (log : List (Int × Bool)) : Nat :=
  (log.filter (fun p => p.2 && decide (T ≤ p.1) && decide (p.1 < T + 60))).length

/-- Number of recorded timestamps at or after `T`. -/
def wcount (T : Int) (entries : List Int) : Nat :=
  (entries.filter (fun sc => decide (T ≤ sc))).length

/-! ## Invariants used by the proofs -/

/-- Heartbeat bookkeeping invariant of a unit, relative to a time `T` no
earlier than every event so far: a never-heartbeated unit is stored
`disconnected`; a recorded heartbeat is not in the future, and while it is
at most 10 seconds old the stored status is still `connected`. -/
def HbInv (T : Nat) (u : TrainingUnit) : Prop :=
  (u.lastHeartbeat = none → u.connectionStatus = "disconnected") ∧
  (∀ t, u.lastHeartbeat = some t →
    t ≤ T ∧ (T - t ≤ 10 → u.connectionStatus = "connected"))

/-- Structural invariant of the V1 pipeline: every index member and every
popped id has a task row; index members are `queued` (or `completed`,
because `UploadResult` does not remove them); popped ids are `queued`,
`completed` or `cancelled` and no longer index members; no row ever holds
status `failed` (the simulated worker hardcodes success). -/
def V1Inv (s : V1State) : Prop :=
  (∀ e ∈ s.zset, ∃ t ∈ s.tasks, t.id = e.member) ∧
  (∀ e ∈ s.zset, ∀ t ∈ s.tasks, t.id = e.member →
    t.status = "queued" ∨ t.status = "completed") ∧
  (∀ m ∈ s.popped, ∃ t ∈ s.tasks, t.id = m) ∧
  (∀ m ∈ s.popped, ∀ t ∈ s.tasks, t.id = m →
    t.status = "queued" ∨ t.status = "completed" ∨ t.status = "cancelled") ∧
  (∀ m ∈ s.popped, zMember s.zset m = false) ∧
  (∀ t ∈ s.tasks, t.status = "queued" ∨ t.status = "running" ∨
    t.status = "completed" ∨ t.status = "cancelled")

/-! ## Concrete scenario states -/

/-- Priority-overtaking scenario S1: three tasks created with priorities
1, 5, 3. -/
def prioState1 : V1State := (createTask v1Init "task_a" "job-a" [] 1 []).1

/-- Second creation of scenario S1. -/
def prioState2 : V1State := (createTask prioState1 "task_b" "job-b" [] 5 []).1

/-- Third creation of scenario S1. -/
def prioState3 : V1State := (createTask prioState2 "task_c" "job-c" [] 3 []).1

/-- One task freshly created (status `queued`, enqueued). -/
def uploadDemo0 : V1State := v1Step v1Init (V1Op.create "t1" "job" [] 0 [])

/-- The same task after its result was uploaded while still `queued`. -/
def uploadDemo1 : V1State := v1Step uploadDemo0 (V1Op.upload "t1" [] none 5)

/-- A worker then pops the still-enqueued id. -/
def uploadDemo2 : V1State := v1Step uploadDemo1 V1Op.pop

/-- The worker loads the row and marks it `running`. -/
def uploadDemo3 : V1State := v1Step uploadDemo2 (V1Op.load "t1" 9)

/-- A unit with two queues (orders 0 and 1), the failing input for the sync
ordering claim. -/
def syncDemo : V2State :=
  applyV2All (v2Init "unit_1" "grp_1" "user_1" "demo" "" [])
    [V2Op.createQ "queue_a" "first" [] "web",
     V2Op.createQ "queue_b" "second" [] "web"]

/-- A reachable unit state in which deletion left an order gap: six queues
are created (orders 0..5), the last is started and completed, the first
five are deleted, and one fresh pending queue is created (order 6).  The
surviving completed queue keeps order 5. -/
def gapState : V2State :=
  applyV2All (v2Init "unit_1" "grp_1" "user_1" "demo" "" [])
    [V2Op.createQ "q0" "n0" [] "web", V2Op.createQ "q1" "n1" [] "web",
     V2Op.createQ "q2" "n2" [] "web", V2Op.createQ "q3" "n3" [] "web",
     V2Op.createQ "q4" "n4" [] "web", V2Op.createQ "q5" "n5" [] "web",
     V2Op.startQ "q5" 1, V2Op.completeQ "q5" 2 [] [],
     V2Op.deleteQ "q0", V2Op.deleteQ "q1", V2Op.deleteQ "q2",
     V2Op.deleteQ "q3", V2Op.deleteQ "q4",
     V2Op.createQ "qp" "fresh" [] "web"]

/-- Helper for stating the reorder counterexample: the state the reorder
endpoint returns on `gapState` for the single pending id. -/
def gapReordered : V2State :=
  match reorderQueues gapState ["qp"] with
  | Except.ok s2 => s2
  | Except.error _ => gapState

/-- A reachable unit state whose only connection event is a heartbeat at
second 0: the stored row says `connected` with `last_heartbeat = 0`, and no
check-performing read has run since. -/
def staleSyncState : V2State :=
  { unit := runUnit (initialUnit "unit_st" "grp_1" "user_1" "demo" "" [])
      [UnitEvent.hbE 0]
    queues := [] }


/-! ## Generic helper lemmas -/

/-- `find?` through a `map` whose predicate is invariant under the mapped
function. -/
theorem find?_map_congr {α β : Type} (l : List α) (f : α → β) (p : β → Bool)
    (q : α → Bool) (h : ∀ a, p (f a) = q a) :
    (l.map f).find? p = (l.find? q).map f := by
  rw [List.find?_map]
  have hpq : (p ∘ f) = q := funext h
  rw [hpq]

/-- A row found in the left part of an append is found in the append. -/
theorem find?_append_left {α : Type} {l1 : List α} (l2 : List α)
    {p : α → Bool} {a : α} (h : l1.find? p = some a) :
    (l1 ++ l2).find? p = some a := by
  rw [List.find?_append, h]
  rfl

/-- Looking a task up by id commutes with an id-preserving row update. -/
theorem find?_id_map (l : List Task) (g : Task → Task)
    (hg : ∀ t, (g t).id = t.id) (x : String) :
    (l.map g).find? (fun t => t.id = x) = (l.find? (fun t => t.id = x)).map g := by
  refine find?_map_congr l g _ _ (fun a => ?_)
  simp [hg]

/-- Looking a queue row up by id commutes with an id-preserving update. -/
theorem find?_qid_map (l : List TrainingQueue) (g : TrainingQueue → TrainingQueue)
    (hg : ∀ q, (g q).id = q.id) (x : String) :
    (l.map g).find? (fun q => q.id = x) = (l.find? (fun q => q.id = x)).map g := by
  refine find?_map_congr l g _ _ (fun a => ?_)
  simp [hg]

/-- The seed of a left max-fold bounds the fold from below. -/
theorem le_foldl_max (os : List Int) (o : Int) : o ≤ os.foldl max o := by
  induction os generalizing o with
  | nil => exact le_refl o
  | cons a as ih => exact le_trans (le_max_left o a) (ih (max o a))

/-- Every element of the list bounds a left max-fold from below. -/
theorem mem_le_foldl_max (os : List Int) : ∀ (o x : Int), x ∈ os →
    x ≤ os.foldl max o := by
  induction os with
  | nil => intro o x hx; cases hx
  | cons a as ih =>
    intro o x hx
    rcases List.mem_cons.mp hx with h | h
    · subst h
      exact le_trans (le_max_right o x) (le_foldl_max as (max o x))
    · exact ih (max o a) x h

/-- A left max-fold is the seed or one of the elements. -/
theorem foldl_max_cases (os : List Int) (o : Int) :
    os.foldl max o = o ∨ os.foldl max o ∈ os := by
  induction os generalizing o with
  | nil => exact Or.inl rfl
  | cons a as ih =>
    rcases ih (max o a) with h | h
    · rcases max_choice o a with hm | hm
      · exact Or.inl (by rw [List.foldl_cons, h, hm])
      · exact Or.inr (by rw [List.foldl_cons, h, hm]; exact List.mem_cons_self a as)
    · exact Or.inr (List.mem_cons_of_mem a h)

/-- `MAX("order")` bounds every row's order. -/
theorem maxOrderOf_ge (qs : List TrainingQueue) (q : TrainingQueue)
    (hq : q ∈ qs) : q.order ≤ maxOrderOf qs := by
  cases qs with
  | nil => cases hq
  | cons q0 rest =>
    rcases List.mem_cons.mp hq with h | h
    · subst h
      exact le_foldl_max _ _
    · exact mem_le_foldl_max _ _ _ (List.mem_map_of_mem (fun x => x.order) h)

/-- Freshness of the remaining items is preserved when a row with a
distinct id is appended. -/
theorem batch_fresh_step (qs : List TrainingQueue) (q : TrainingQueue)
    (rest : List (String × String × JSONB))
    (hfresh : ∀ p ∈ rest, qs.any (fun x => x.id = p.1) = false)
    (hnotin : q.id ∉ rest.map (fun p => p.1)) :
    ∀ p ∈ rest, (qs ++ [q]).any (fun x => x.id = p.1) = false := by
  intro p hp
  have h1 : qs.any (fun x => x.id = p.1) = false := hfresh p hp
  have h2 : ¬ q.id = p.1 := fun heq =>
    hnotin (heq ▸ List.mem_map_of_mem (fun p => p.1) hp)
  simp only [List.any_append, h1, Bool.false_or, List.any_cons, List.any_nil,
    Bool.or_false]
  simpa using h2

/-- `MAX("order")` of a nonempty table is the order of one of its rows. -/
theorem maxOrderOf_mem (qs : List TrainingQueue) (h : ¬ qs = []) :
    ∃ q ∈ qs, maxOrderOf qs = q.order := by
  cases qs with
  | nil => exact absurd rfl h
  | cons q0 rest =>
    have : maxOrderOf (q0 :: rest) = (rest.map (fun x => x.order)).foldl max q0.order := rfl
    rcases foldl_max_cases (rest.map (fun x => x.order)) q0.order with hc | hc
    · exact ⟨q0, List.mem_cons_self _ _, by rw [this, hc]⟩
    · rcases List.mem_map.mp hc with ⟨q, hq, hqo⟩
      exact ⟨q, List.mem_cons_of_mem _ hq, by rw [this, ← hqo]⟩

/-- `batchLoop` only appends rows, so an existing row keeps its lookup
result. -/
theorem batchLoop_preserve (uid ow cb : String) :
    ∀ (items : List (String × String × JSONB)) (qs : List TrainingQueue)
      (ord : Int) (x : String) (a : TrainingQueue),
      qs.find? (fun q => q.id = x) = some a →
      (batchLoop uid ow cb qs ord items).1.find? (fun q => q.id = x) = some a := by
  intro items
  induction items with
  | nil => intro qs ord x a h; exact h
  | cons p rest ih =>
    intro qs ord x a h
    obtain ⟨qid, nm, ps⟩ := p
    by_cases hdup : qs.any (fun q => q.id = qid) = true
    · simpa [batchLoop, hdup] using ih qs (ord + 1) x a h
    · simp only [batchLoop, hdup, if_false]
      exact ih _ (ord + 1) x a (find?_append_left _ h)

/-- In `batchLoop` with fresh, pairwise-distinct ids, the i-th item's row
gets order `ord + i`. -/
theorem batchLoop_orders (uid ow cb : String) :
    ∀ (items : List (String × String × JSONB)) (qs : List TrainingQueue)
      (ord : Int),
      (∀ p ∈ items, qs.any (fun q => q.id = p.1) = false) →
      (items.map (fun p => p.1)).Nodup →
      ∀ i (hi : i < items.length),
        orderOfId (batchLoop uid ow cb qs ord items).1 ((items.get ⟨i, hi⟩).1)
          = some (ord + Int.ofNat i) := by
  intro items
  induction items with
  | nil => intro qs ord _ _ i hi; exact absurd hi (by simp)
  | cons p rest ih =>
    intro qs ord hfresh hnd i hi
    obtain ⟨qid, nm, ps⟩ := p
    have hqs : qs.any (fun q => q.id = qid) = false := hfresh _ (List.mem_cons_self _ _)
    have hnotin : qid ∉ rest.map (fun p => p.1) :=
      (List.nodup_cons.mp (by simpa using hnd)).1
    have hndr : (rest.map (fun p => p.1)).Nodup :=
      (List.nodup_cons.mp (by simpa using hnd)).2
    simp only [batchLoop, hqs, Bool.false_eq_true, if_false]
    have hfreshr := batch_fresh_step qs (batchRow uid ow cb qid nm ps ord) rest
      (fun p2 hp2 => hfresh _ (List.mem_cons_of_mem _ hp2)) hnotin
    cases i with
    | zero =>
      have hq : ∀ x ∈ qs, ¬ x.id = qid := by simpa using hqs
      have hnone : qs.find? (fun q => q.id = qid) = none :=
        List.find?_eq_none.mpr (fun x hx => by simpa using hq x hx)
      have hfind : (qs ++ [batchRow uid ow cb qid nm ps ord]).find?
          (fun q => q.id = qid) = some (batchRow uid ow cb qid nm ps ord) := by
        rw [List.find?_append, hnone]
        simp [batchRow]
      have hkeep := batchLoop_preserve uid ow cb rest _ (ord + 1) qid _ hfind
      have hget0 : (((qid, nm, ps) :: rest).get ⟨0, hi⟩).1 = qid := rfl
      simp only [orderOfId, hget0]
      rw [hkeep]
      simp [batchRow]
    | succ j =>
      have hj : j < rest.length := by simpa using hi
      have hrec := ih _ (ord + 1) hfreshr hndr j hj
      have hget : ((qid, nm, ps) :: rest).get ⟨j + 1, hi⟩ = rest.get ⟨j, hj⟩ := rfl
      rw [hget, hrec]
      have harith : ord + 1 + Int.ofNat j = ord + Int.ofNat (j + 1) := by
        simp only [Int.ofNat_eq_coe]
        push_cast
        ring
      rw [harith]

/-- With fresh, pairwise-distinct ids no insert fails, and `batchLoop`
reports the supplied ids in order. -/
theorem batchLoop_ids (uid ow cb : String) :
    ∀ (items : List (String × String × JSONB)) (qs : List TrainingQueue)
      (ord : Int),
      (∀ p ∈ items, qs.any (fun q => q.id = p.1) = false) →
      (items.map (fun p => p.1)).Nodup →
      (batchLoop uid ow cb qs ord items).2 = items.map (fun p => p.1) := by
  intro items
  induction items with
  | nil => intro qs ord _ _; rfl
  | cons p rest ih =>
    intro qs ord hfresh hnd
    obtain ⟨qid, nm, ps⟩ := p
    have hqs : qs.any (fun q => q.id = qid) = false := hfresh _ (List.mem_cons_self _ _)
    have hnotin : qid ∉ rest.map (fun p => p.1) :=
      (List.nodup_cons.mp (by simpa using hnd)).1
    have hndr : (rest.map (fun p => p.1)).Nodup :=
      (List.nodup_cons.mp (by simpa using hnd)).2
    simp only [batchLoop, hqs, Bool.false_eq_true, if_false]
    have hfreshr := batch_fresh_step qs (batchRow uid ow cb qid nm ps ord) rest
      (fun p2 hp2 => hfresh _ (List.mem_cons_of_mem _ hp2)) hnotin
    rw [ih _ (ord + 1) hfreshr hndr]
    rfl

/-- `setOrderIfId` changes only the order column. -/
theorem setOrderIfId_proj (qid : String) (o : Int) (q : TrainingQueue) :
    (setOrderIfId qid o q).id = q.id ∧ (setOrderIfId qid o q).status = q.status ∧
    (setOrderIfId qid o q).unitId = q.unitId := by
  unfold setOrderIfId
  split <;> exact ⟨rfl, rfl, rfl⟩

/-- Looking up a row not named by a save leaves its order unchanged. -/
theorem orderOfId_map_set_ne (qs : List TrainingQueue) (qid : String) (o : Int)
    (x : String) (hne : ¬ x = qid) :
    orderOfId (qs.map (setOrderIfId qid o)) x = orderOfId qs x := by
  simp only [orderOfId]
  rw [find?_qid_map _ _ (fun q => (setOrderIfId_proj qid o q).1) x]
  rcases h : qs.find? (fun q => q.id = x) with _ | t
  · rw [h]; rfl
  · rw [h]
    have ht : t.id = x := by simpa using List.find?_some h
    simp [setOrderIfId, ht, hne]

/-- Looking up the saved row returns the saved order. -/
theorem orderOfId_map_set_eq (qs : List TrainingQueue) (qid : String) (o : Int)
    (t : TrainingQueue) (h : qs.find? (fun q => q.id = qid) = some t) :
    orderOfId (qs.map (setOrderIfId qid o)) qid = some o := by
  simp only [orderOfId]
  rw [find?_qid_map _ _ (fun q => (setOrderIfId_proj qid o q).1) qid, h]
  have ht : t.id = qid := by simpa using List.find?_some h
  simp [setOrderIfId, ht]

/-- A reorder save touches no status. -/
theorem statusOfId_map_set (qs : List TrainingQueue) (qid : String) (o : Int)
    (x : String) :
    statusOfId (qs.map (setOrderIfId qid o)) x = statusOfId qs x := by
  simp only [statusOfId]
  rw [find?_qid_map _ _ (fun q => (setOrderIfId_proj qid o q).1) x]
  rcases h : qs.find? (fun q => q.id = x) with _ | t
  · rw [h]; rfl
  · rw [h]
    simp [(setOrderIfId_proj qid o t).2.1]

/-- The reorder loop leaves rows it was not asked about untouched. -/
theorem reorderLoop_not_mem (x : String) :
    ∀ (ids : List String) (qs : List TrainingQueue) (start : Int),
      x ∉ ids → orderOfId (reorderLoop qs start ids) x = orderOfId qs x := by
  intro ids
  induction ids with
  | nil => intro qs start _; rfl
  | cons qid rest ih =>
    intro qs start hx
    have hne : ¬ x = qid := fun h => hx (h ▸ List.mem_cons_self _ _)
    have hrest : x ∉ rest := fun h => hx (List.mem_cons_of_mem _ h)
    simp only [reorderLoop]
    rw [ih _ (start + 1) hrest, orderOfId_map_set_ne qs qid start x hne]

/-- The reorder loop never touches a status. -/
theorem reorderLoop_status (x : String) :
    ∀ (ids : List String) (qs : List TrainingQueue) (start : Int),
      statusOfId (reorderLoop qs start ids) x = statusOfId qs x := by
  intro ids
  induction ids with
  | nil => intro qs start; rfl
  | cons qid rest ih =>
    intro qs start
    simp only [reorderLoop]
    rw [ih _ (start + 1), statusOfId_map_set qs qid start x]

/-- A save by id keeps row presence. -/
theorem find?_map_set_isSome (qs : List TrainingQueue) (qid : String) (o : Int)
    (x : String) (t : TrainingQueue)
    (h : qs.find? (fun q => q.id = x) = some t) :
    (qs.map (setOrderIfId qid o)).find? (fun q => q.id = x)
      = some (setOrderIfId qid o t) := by
  rw [find?_qid_map _ _ (fun q => (setOrderIfId_proj qid o q).1) x, h]
  rfl

/-- In the reorder loop, the i-th supplied id (ids pairwise distinct, rows
present) receives order `start + i`. -/
theorem reorderLoop_orders :
    ∀ (ids : List String) (qs : List TrainingQueue) (start : Int),
      ids.Nodup →
      (∀ qid ∈ ids, ∃ t, qs.find? (fun q => q.id = qid) = some t) →
      ∀ i (hi : i < ids.length),
        orderOfId (reorderLoop qs start ids) (ids.get ⟨i, hi⟩)
          = some (start + Int.ofNat i) := by
  intro ids
  induction ids with
  | nil => intro qs start _ _ i hi; exact absurd hi (by simp)
  | cons qid rest ih =>
    intro qs start hnd hpres i hi
    have hnotin : qid ∉ rest := (List.nodup_cons.mp hnd).1
    have hndr : rest.Nodup := (List.nodup_cons.mp hnd).2
    obtain ⟨t, ht⟩ := hpres qid (List.mem_cons_self _ _)
    simp only [reorderLoop]
    cases i with
    | zero =>
      have hget0 : (qid :: rest).get ⟨0, hi⟩ = qid := rfl
      rw [hget0, reorderLoop_not_mem qid rest _ (start + 1) hnotin,
        orderOfId_map_set_eq qs qid start t ht]
      simp
    | succ j =>
      have hj : j < rest.length := by simpa using hi
      have hpresr : ∀ x ∈ rest, ∃ t2,
          (qs.map (setOrderIfId qid start)).find? (fun q => q.id = x) = some t2 := by
        intro x hx
        obtain ⟨t2, ht2⟩ := hpres x (List.mem_cons_of_mem _ hx)
        exact ⟨setOrderIfId qid start t2, find?_map_set_isSome qs qid start x t2 ht2⟩
      have hrec := ih _ (start + 1) hndr hpresr j hj
      have hget : (qid :: rest).get ⟨j + 1, hi⟩ = rest.get ⟨j, hj⟩ := rfl
      rw [hget, hrec]
      have harith : start + 1 + Int.ofNat j = start + Int.ofNat (j + 1) := by
        simp only [Int.ofNat_eq_coe]
        push_cast
        ring
      rw [harith]

/-- Every row of the reorder loop's output comes from an input row with the
same id, status and unit, and its order changed only if its id was
supplied. -/
theorem reorderLoop_origin :
    ∀ (ids : List String) (qs : List TrainingQueue) (start : Int)
      (q2 : TrainingQueue), q2 ∈ reorderLoop qs start ids →
      ∃ q ∈ qs, q2.id = q.id ∧ q2.status = q.status ∧ q2.unitId = q.unitId ∧
        (q2.order = q.order ∨ q2.id ∈ ids) := by
  intro ids
  induction ids with
  | nil =>
    intro qs start q2 h
    exact ⟨q2, h, rfl, rfl, rfl, Or.inl rfl⟩
  | cons qid rest ih =>
    intro qs start q2 h
    simp only [reorderLoop] at h
    obtain ⟨q1, hq1, hid, hst, hun, hor⟩ := ih _ (start + 1) q2 h
    obtain ⟨q0, hq0, hg⟩ := List.mem_map.mp hq1
    obtain ⟨hg1, hg2, hg3⟩ := setOrderIfId_proj qid start q0
    refine ⟨q0, hq0, by rw [hid, ← hg, hg1], by rw [hst, ← hg, hg2],
      by rw [hun, ← hg, hg3], ?_⟩
    by_cases hcase : q0.id = qid
    · exact Or.inr (by rw [hid, ← hg, hg1, hcase]; exact List.mem_cons_self _ _)
    · rcases hor with hor | hor
      · exact Or.inl (by rw [hor, ← hg]; simp [setOrderIfId, hcase])
      · exact Or.inr (List.mem_cons_of_mem _ hor)

/-- Status written by one V2 call: either carried over from an input row or
one of the four statuses the handlers write (`cancelled` is never
written). -/
theorem applyV2_queue_status (s : V2State) (op : V2Op) (q2 : TrainingQueue)
    (h : q2 ∈ (applyV2 s op).queues) :
    (∃ q ∈ s.queues, q2.status = q.status) ∨ q2.status = "pending" ∨
    q2.status = "running" ∨ q2.status = "completed" ∨ q2.status = "failed" := by
  have hself : q2 ∈ s.queues →
      (∃ q ∈ s.queues, q2.status = q.status) ∨ q2.status = "pending" ∨
      q2.status = "running" ∨ q2.status = "completed" ∨ q2.status = "failed" :=
    fun hm => Or.inl ⟨q2, hm, rfl⟩
  cases op with
  | createQ qid nm ps cb =>
    simp only [applyV2, createTrainingQueue] at h
    by_cases hdup : s.queues.any (fun q => q.id = qid) = true
    · simp only [hdup, if_true] at h; exact hself h
    · simp only [hdup, if_false] at h
      rcases List.mem_append.mp h with hm | hm
      · exact hself hm
      · simp only [List.mem_singleton] at hm
        subst hm
        exact Or.inr (Or.inl rfl)
  | batchQ items cb =>
    simp only [applyV2, batchCreateQueues] at h
    have hloop : ∀ (its : List (String × String × JSONB))
        (qs : List TrainingQueue) (ord : Int) (x : TrainingQueue),
        x ∈ (batchLoop s.unit.id s.unit.userId
          (if cb = "" then "web" else cb) qs ord its).1 →
        x ∈ qs ∨ x.status = "pending" := by
      intro its
      induction its with
      | nil => intro qs ord x hx; exact Or.inl hx
      | cons p rest ihb =>
        intro qs ord x hx
        obtain ⟨qid, nm, ps⟩ := p
        by_cases hdup : qs.any (fun q => q.id = qid) = true
        · simp only [batchLoop, hdup, if_true] at hx
          exact ihb qs (ord + 1) x hx
        · simp only [batchLoop, hdup, if_false] at hx
          rcases ihb _ (ord + 1) x hx with hm | hm
          · rcases List.mem_append.mp hm with hm2 | hm2
            · exact Or.inl hm2
            · simp only [List.mem_singleton] at hm2
              subst hm2
              exact Or.inr rfl
          · exact Or.inr hm
    rcases hloop items s.queues (maxOrderOf (unitQueues s) + 1) q2 h with hm | hm
    · exact hself hm
    · exact Or.inr (Or.inl hm)
  | updateQ qid nm ps =>
    simp only [applyV2, updateTrainingQueue] at h
    rcases hfind : s.queues.find? (fun q => q.id = qid) with _ | q
    · rw [hfind] at h; exact hself h
    · rw [hfind] at h
      by_cases hr : q.status = "running"
      · simp only [hr, if_true] at h; exact hself h
      · by_cases hc : q.status = "completed"
        · simp only [hr, hc, if_true, if_false] at h; exact hself h
        · simp only [hr, hc, if_false] at h
          obtain ⟨q0, hq0, hg⟩ := List.mem_map.mp h
          refine Or.inl ⟨q0, hq0, ?_⟩
          rw [← hg]
          by_cases hx : q0.id = qid <;> simp [hx]
  | deleteQ qid =>
    simp only [applyV2, deleteTrainingQueue] at h
    rcases hfind : s.queues.find? (fun q => q.id = qid) with _ | q
    · rw [hfind] at h; exact hself h
    · rw [hfind] at h
      by_cases hr : q.status = "running"
      · simp only [hr, if_true] at h; exact hself h
      · simp only [hr, if_false] at h
        exact hself (List.mem_of_mem_filter h)
  | reorderQ ids =>
    simp only [applyV2] at h
    rcases hre : reorderQueues s ids with e | s2
    · rw [hre] at h
      exact hself h
    · rw [hre] at h
      have hq : s2.queues =
          reorderLoop s.queues (Int.ofNat (reorderStartCount s)) ids := by
        unfold reorderQueues at hre
        simp only [] at hre
        split at hre
        · cases hre
        · split at hre
          · cases hre
          · cases hre
            rfl
      rw [hq] at h
      obtain ⟨q0, hq0, _, hst, _, _⟩ := reorderLoop_origin ids s.queues _ q2 h
      exact Or.inl ⟨q0, hq0, hst⟩
  | updateU nm ds cfg => exact hself h
  | getU now => exact hself h
  | listQ now => exact hself h
  | syncU cv => exact hself h
  | hb now => exact hself h
  | startQ qid now =>
    simp only [applyV2, startQueue] at h
    rcases hfind : s.queues.find? (fun q => q.id = qid) with _ | q
    · rw [hfind] at h; exact hself h
    · rw [hfind] at h
      by_cases hp : q.status = "pending"
      · simp only [hp, if_true] at h
        obtain ⟨q0, hq0, hg⟩ := List.mem_map.mp h
        by_cases hx : q0.id = qid
        · rw [← hg]
          simp only [hx, if_true]
          exact Or.inr (Or.inr (Or.inl trivial))
        · rw [← hg]
          simp only [hx, if_false]
          exact Or.inl ⟨q0, hq0, rfl⟩
      · simp only [hp, if_false] at h; exact hself h
  | completeQ qid now res met =>
    simp only [applyV2, completeQueue] at h
    rcases hfind : s.queues.find? (fun q => q.id = qid) with _ | q
    · rw [hfind] at h; exact hself h
    · rw [hfind] at h
      obtain ⟨q0, hq0, hg⟩ := List.mem_map.mp h
      by_cases hx : q0.id = qid
      · rw [← hg]
        simp only [hx, if_true]
        exact Or.inr (Or.inr (Or.inr (Or.inl trivial)))
      · rw [← hg]
        simp only [hx, if_false]
        exact Or.inl ⟨q0, hq0, rfl⟩
  | failQ qid now msg =>
    simp only [applyV2, failQueue] at h
    rcases hfind : s.queues.find? (fun q => q.id = qid) with _ | q
    · rw [hfind] at h; exact hself h
    · rw [hfind] at h
      obtain ⟨q0, hq0, hg⟩ := List.mem_map.mp h
      by_cases hx : q0.id = qid
      · rw [← hg]
        simp only [hx, if_true]
        exact Or.inr (Or.inr (Or.inr (Or.inr trivial)))
      · rw [← hg]
        simp only [hx, if_false]
        exact Or.inl ⟨q0, hq0, rfl⟩

/-- No reachable V2 state holds a `cancelled` queue: the API never writes
that status. -/
theorem v2_statuses_reachable :
    ∀ (ops : List V2Op) (s : V2State),
      (∀ q ∈ s.queues, q.status = "pending" ∨ q.status = "running" ∨
        q.status = "completed" ∨ q.status = "failed") →
      ∀ q ∈ (applyV2All s ops).queues,
        q.status = "pending" ∨ q.status = "running" ∨
        q.status = "completed" ∨ q.status = "failed" := by
  intro ops
  induction ops with
  | nil => intro s hs q hq; exact hs q hq
  | cons op rest ih =>
    intro s hs q hq
    refine ih (applyV2 s op) ?_ q hq
    intro q2 hq2
    rcases applyV2_queue_status s op q2 hq2 with ⟨q0, hq0, hst⟩ | h | h | h | h
    · rw [hst]; exact hs q0 hq0
    · exact Or.inl h
    · exact Or.inr (Or.inl h)
    · exact Or.inr (Or.inr (Or.inl h))
    · exact Or.inr (Or.inr (Or.inr h))

/-! ## C1 -- the reorder endpoint -/

/-- Claim C1, amended.  For pairwise-distinct supplied ids naming pending
rows of the unit (row ids unique, as the primary key guarantees): the
reorder succeeds, assigns `order = P + i` to the i-th id where
`P = reorderStartCount` counts the unit's rows with status in
running / completed / failed, touches no status, and bumps the unit's
version by exactly one.  `P` equals the count of non-pending rows whenever
no row is `cancelled` -- which holds in every API-reachable state, the
final conjunct.  The claim's consequence that every non-pending row ends up
strictly below every reordered pending row holds only under the additional
invariant that non-pending rows already occupy orders below `P`; deletion
can break that invariant (see the counterexample). -/
theorem C1_reorder_amended :
    (∀ (s : V2State) (ids : List String),
      (s.queues.map (fun q => q.id)).Nodup →
      ids.Nodup →
      (∀ qid ∈ ids, ∃ q ∈ s.queues,
        q.id = qid ∧ q.unitId = s.unit.id ∧ q.status = "pending") →
      ∃ s2, reorderQueues s ids = Except.ok s2 ∧
        s2.unit.version = s.unit.version + 1 ∧
        (∀ i (hi : i < ids.length),
          orderOfId s2.queues (ids.get ⟨i, hi⟩)
            = some (Int.ofNat (reorderStartCount s) + Int.ofNat i)) ∧
        (∀ qid, statusOfId s2.queues qid = statusOfId s.queues qid) ∧
        ((∀ q ∈ s.queues, q.status = "pending" ∨ q.status = "running" ∨
            q.status = "completed" ∨ q.status = "failed") →
          reorderStartCount s = (s.queues.filter (fun q =>
            q.unitId = s.unit.id && ¬ (q.status = "pending"))).length) ∧
        ((∀ q ∈ s.queues, q.unitId = s.unit.id →
            reorderNonPendingStatuses.contains q.status = true →
            q.order < Int.ofNat (reorderStartCount s)) →
          ∀ q2 ∈ s2.queues, q2.unitId = s.unit.id →
            reorderNonPendingStatuses.contains q2.status = true →
            ∀ i : Nat, q2.order < Int.ofNat (reorderStartCount s) + Int.ofNat i)) ∧
    (∀ (ops : List V2Op) uid gid owner nm ds cfg,
      ∀ q ∈ (applyV2All (v2Init uid gid owner nm ds cfg) ops).queues,
        q.status = "pending" ∨ q.status = "running" ∨
        q.status = "completed" ∨ q.status = "failed") := by
  constructor
  · intro s ids hqnd hnd hmem
    -- the supplied rows: each id names exactly one row, which is pending
    -- and belongs to the unit
    have hrow : ∀ q ∈ s.queues, q.id ∈ ids →
        q.unitId = s.unit.id ∧ q.status = "pending" := by
      intro q hq hqid
      obtain ⟨q1, hq1, hq1id, hq1unit, hq1st⟩ := hmem q.id hqid
      have : q1 = q := List.inj_on_of_nodup_map hqnd hq1 hq (by rw [hq1id])
      subst this
      exact ⟨hq1unit, hq1st⟩
    have hg1 : (s.queues.filter (fun q => ids.contains q.id)).any
        (fun q => ¬ (q.unitId = s.unit.id)) = false := by
      rw [List.any_eq_false]
      intro q hq
      have hmemf := List.mem_of_mem_filter hq
      have hqid : q.id ∈ ids := by
        have := List.of_mem_filter hq
        simpa using this
      simpa using (hrow q hmemf hqid).1
    have hg2 : (s.queues.filter (fun q => ids.contains q.id)).any
        (fun q => ¬ (q.status = "pending")) = false := by
      rw [List.any_eq_false]
      intro q hq
      have hmemf := List.mem_of_mem_filter hq
      have hqid : q.id ∈ ids := by
        have := List.of_mem_filter hq
        simpa using this
      simpa using (hrow q hmemf hqid).2
    have hok : reorderQueues s ids = Except.ok
        { unit := { s.unit with version := s.unit.version + 1 }
          queues := reorderLoop s.queues (Int.ofNat (reorderStartCount s)) ids } := by
      unfold reorderQueues
      simp only []
      rw [if_neg (by rw [hg1]; simp), if_neg (by rw [hg2]; simp)]
    refine ⟨_, hok, rfl, ?_, ?_, ?_, ?_⟩
    · intro i hi
      refine reorderLoop_orders ids s.queues _ hnd ?_ i hi
      intro qid hqid
      obtain ⟨q1, hq1, hq1id, _, _⟩ := hmem qid hqid
      rcases hfind : s.queues.find? (fun q => q.id = qid) with _ | t
      · exact absurd (by simpa using List.find?_eq_none.mp hfind q1 hq1) (by simp [hq1id])
      · exact ⟨t, hfind⟩
    · intro qid
      exact reorderLoop_status qid ids s.queues _
    · intro hstat
      unfold reorderStartCount
      congr 1
      refine List.filter_congr ?_
      intro q hq
      rcases hstat q hq with h | h | h | h <;>
        simp [h, reorderNonPendingStatuses]
    · intro hinv q2 hq2 hq2unit hq2np i
      obtain ⟨q0, hq0, hid, hst, hun, hor⟩ :=
        reorderLoop_origin ids s.queues _ q2 hq2
      have hq0np : reorderNonPendingStatuses.contains q0.status = true := by
        rw [← hst]; exact hq2np
      rcases hor with hor | hor
      · have hlt : q0.order < Int.ofNat (reorderStartCount s) :=
          hinv q0 hq0 (by rw [← hun, hq2unit]) hq0np
        have hnn : (0 : Int) ≤ Int.ofNat i := Int.ofNat_nonneg i
        omega
      · -- the supplied ids name pending rows, so a non-pending row cannot
        -- have been among them
        have := (hrow q0 hq0 (by rw [← hid]; exact hor)).2
        rw [← hst] at this
        rw [this] at hq2np
        simp [reorderNonPendingStatuses] at hq2np
  · intro ops uid gid owner nm ds cfg q hq
    exact v2_statuses_reachable ops _ (by intro q0 hq0; cases hq0) q hq

/-- Counterexample to claim C1 as stated: in the reachable state
`gapState` (one completed queue left at order 5 after deletions, one
pending queue at order 6), reordering the single pending id gives it order
`P + 0 = 1`, which is NOT strictly above the completed queue's order 5 --
the claim's parenthetical consequence fails. -/
theorem C1_reorder_counterexample :
    (gapState.queues.map (fun q => q.id)).Nodup ∧
    (∀ qid ∈ ["qp"], ∃ q ∈ gapState.queues,
      q.id = qid ∧ q.unitId = gapState.unit.id ∧ q.status = "pending") ∧
    reorderQueues gapState ["qp"] = Except.ok gapReordered ∧
    orderOfId gapReordered.queues "qp" = some 1 ∧
    statusOfId gapReordered.queues "q5" = some "completed" ∧
    orderOfId gapReordered.queues "q5" = some 5 ∧
    ¬ ((5 : Int) < (1 : Int)) := by
  refine ⟨by decide, by decide, by rfl, by decide, by decide, by decide, by decide⟩

/-- Witness for the hypotheses of `C1_reorder_amended` at a concrete state:
both pending queues of `syncDemo` reordered in reverse. -/
theorem C1_reorder_amended_witness :
    ∃ s2, reorderQueues syncDemo ["queue_b", "queue_a"] = Except.ok s2 ∧
      s2.unit.version = syncDemo.unit.version + 1 ∧
      orderOfId s2.queues "queue_b" = some 0 := by
  obtain ⟨s2, hok, hver, hord, -⟩ := C1_reorder_amended.1 syncDemo
    ["queue_b", "queue_a"] (by decide) (by decide) (by decide)
  refine ⟨s2, hok, hver, ?_⟩
  have := hord 0 (by decide)
  simpa using this

/-! ## C7 -- the version cursor -/

/-- The lazy connection sweep never writes the version column. -/
theorem checkConnectionPersist_version (now : Nat) (u : TrainingUnit) :
    (checkConnectionPersist now u).version = u.version := by
  unfold checkConnectionPersist
  rcases u.lastHeartbeat with _ | t
  · rfl
  · by_cases h : 10 < now - t
    · by_cases hd : u.connectionStatus = "disconnected" <;> simp [h, hd]
    · simp [h]

/-- A successful reorder bumps the version by exactly one. -/
theorem reorderQueues_ok_version (s : V2State) (ids : List String)
    (s2 : V2State) (h : reorderQueues s ids = Except.ok s2) :
    s2.unit.version = s.unit.version + 1 := by
  unfold reorderQueues at h
  simp only [] at h
  split at h
  · cases h
  · split at h
    · cases h
    · cases h
      rfl

/-- No single V2 call decreases the version. -/
theorem applyV2_version_mono (s : V2State) (op : V2Op) :
    s.unit.version ≤ (applyV2 s op).unit.version := by
  cases op with
  | createQ qid nm ps cb =>
    simp only [applyV2, createTrainingQueue]
    split
    · exact le_refl _
    · simp only []
      omega
  | batchQ items cb =>
    simp only [applyV2, batchCreateQueues]
    omega
  | updateQ qid nm ps =>
    simp only [applyV2, updateTrainingQueue]
    rcases hfind : s.queues.find? (fun q => q.id = qid) with _ | q
    · simp [hfind]
    · simp only [hfind]
      by_cases hr : q.status = "running"
      · simp [hr]
      · by_cases hc : q.status = "completed"
        · simp [hr, hc]
        · simp only [hr, hc, if_false]
          omega
  | deleteQ qid =>
    simp only [applyV2, deleteTrainingQueue]
    rcases hfind : s.queues.find? (fun q => q.id = qid) with _ | q
    · simp [hfind]
    · simp only [hfind]
      by_cases hr : q.status = "running"
      · simp [hr]
      · simp only [hr, if_false]
        omega
  | reorderQ ids =>
    simp only [applyV2]
    rcases hre : reorderQueues s ids with e | s2
    · simp only [hre]
      exact le_refl _
    · simp only [hre]
      rw [reorderQueues_ok_version s ids s2 hre]
      omega
  | updateU nm ds cfg =>
    simp only [applyV2, updateTrainingUnit]
    omega
  | getU now =>
    simp only [applyV2]
    exact le_of_eq (checkConnectionPersist_version now s.unit).symm
  | listQ now =>
    simp only [applyV2]
    exact le_of_eq (checkConnectionPersist_version now s.unit).symm
  | syncU cv => exact le_refl _
  | hb now => exact le_refl _
  | startQ qid now =>
    simp only [applyV2, startQueue]
    rcases hfind : s.queues.find? (fun q => q.id = qid) with _ | q
    · simp [hfind]
    · simp only [hfind]
      by_cases hp : q.status = "pending" <;> simp [hp]
  | completeQ qid now res met =>
    simp only [applyV2, completeQueue]
    rcases hfind : s.queues.find? (fun q => q.id = qid) with _ | q <;> simp [hfind]
  | failQ qid now msg =>
    simp only [applyV2, failQueue]
    rcases hfind : s.queues.find? (fun q => q.id = qid) with _ | q <;> simp [hfind]

/-- Claim C7: each mutation (create-queue with a fresh id, batch-create --
one bump for the whole batch, update-queue and delete-queue on rows their
guards allow, update-unit) bumps the unit's version by exactly one; the
read and client-execution paths (get, list, sync, heartbeat, queue
start / complete / fail) leave it unchanged; and over any sequence of calls
the version never decreases. -/
theorem C7_version_cursor :
    (∀ s qid nm ps cb, s.queues.any (fun q => q.id = qid) = false →
      (createTrainingQueue s qid nm ps cb).1.unit.version = s.unit.version + 1) ∧
    (∀ s items cb,
      (batchCreateQueues s items cb).1.unit.version = s.unit.version + 1) ∧
    (∀ s qid nm ps q, s.queues.find? (fun x => x.id = qid) = some q →
      ¬ q.status = "running" → ¬ q.status = "completed" →
      (updateTrainingQueue s qid nm ps).unit.version = s.unit.version + 1) ∧
    (∀ s qid q, s.queues.find? (fun x => x.id = qid) = some q →
      ¬ q.status = "running" →
      (deleteTrainingQueue s qid).unit.version = s.unit.version + 1) ∧
    (∀ s nm ds cfg,
      (updateTrainingUnit s nm ds cfg).unit.version = s.unit.version + 1) ∧
    (∀ s now, (applyV2 s (V2Op.getU now)).unit.version = s.unit.version) ∧
    (∀ s now, (applyV2 s (V2Op.listQ now)).unit.version = s.unit.version) ∧
    (∀ s cv, applyV2 s (V2Op.syncU cv) = s) ∧
    (∀ (s : V2State) now, (applyV2 s (V2Op.hb now)).unit.version = s.unit.version) ∧
    (∀ s qid now, (startQueue s qid now).unit.version = s.unit.version) ∧
    (∀ s qid now res met,
      (completeQueue s qid now res met).unit.version = s.unit.version) ∧
    (∀ s qid now msg, (failQueue s qid now msg).unit.version = s.unit.version) ∧
    (∀ (ops : List V2Op) (s : V2State),
      s.unit.version ≤ (applyV2All s ops).unit.version) := by
  refine ⟨?_, ?_, ?_, ?_, ?_, ?_, ?_, ?_, ?_, ?_, ?_, ?_, ?_⟩
  · intro s qid nm ps cb h
    simp only [createTrainingQueue, h, Bool.false_eq_true, if_false]
  · intro s items cb
    rfl
  · intro s qid nm ps q h hr hc
    simp only [updateTrainingQueue, h, hr, hc, if_false]
  · intro s qid q h hr
    simp only [deleteTrainingQueue, h, hr, if_false]
  · intro s nm ds cfg
    rfl
  · intro s now
    exact checkConnectionPersist_version now s.unit
  · intro s now
    exact checkConnectionPersist_version now s.unit
  · intro s cv
    rfl
  · intro s now
    rfl
  · intro s qid now
    simp only [startQueue]
    rcases hfind : s.queues.find? (fun q => q.id = qid) with _ | q
    · simp [hfind]
    · simp only [hfind]
      by_cases hp : q.status = "pending" <;> simp [hp]
  · intro s qid now res met
    simp only [completeQueue]
    rcases hfind : s.queues.find? (fun q => q.id = qid) with _ | q <;> simp [hfind]
  · intro s qid now msg
    simp only [failQueue]
    rcases hfind : s.queues.find? (fun q => q.id = qid) with _ | q <;> simp [hfind]
  · intro ops
    induction ops with
    | nil => intro s; exact le_refl _
    | cons op rest ih =>
      intro s
      exact le_trans (applyV2_version_mono s op) (ih (applyV2 s op))

/-- Witness for the hypotheses of `C7_version_cursor` at concrete states:
a fresh create, an update and a delete on a pending row each bump the
version by one. -/
theorem C7_version_cursor_witness :
    (createTrainingQueue syncDemo "queue_c" "third" [] "web").1.unit.version
      = syncDemo.unit.version + 1 ∧
    (updateTrainingQueue syncDemo "queue_a" "renamed" none).unit.version
      = syncDemo.unit.version + 1 ∧
    (deleteTrainingQueue syncDemo "queue_a").unit.version
      = syncDemo.unit.version + 1 := by
  refine ⟨?_, ?_, ?_⟩
  · exact C7_version_cursor.1 syncDemo "queue_c" "third" [] "web" (by decide)
  · exact C7_version_cursor.2.2.1 syncDemo "queue_a" "renamed" none
      { id := "queue_a", unitId := "unit_1", name := "first", parameters := []
        order := 0, status := "pending", startedAt := none, completedAt := none
        result := [], metrics := [], errorMsg := "", createdBy := "web"
        userId := "user_1" } (by decide) (by decide) (by decide)
  · exact C7_version_cursor.2.2.2.1 syncDemo "queue_a"
      { id := "queue_a", unitId := "unit_1", name := "first", parameters := []
        order := 0, status := "pending", startedAt := none, completedAt := none
        result := [], metrics := [], errorMsg := "", createdBy := "web"
        userId := "user_1" } (by decide) (by decide)

/-! ## C6 -- heartbeat and liveness -/

/-- The heartbeat invariant survives the passage of time. -/
theorem HbInv_mono (T T2 : Nat) (u : TrainingUnit) (hT : T ≤ T2)
    (h : HbInv T u) : HbInv T2 u := by
  refine ⟨h.1, fun t ht => ?_⟩
  obtain ⟨h1, h2⟩ := h.2 t ht
  exact ⟨le_trans h1 hT, fun hle => h2 (by omega)⟩

/-- The heartbeat invariant is preserved by every event. -/
theorem HbInv_step (u : TrainingUnit) (e : UnitEvent) (T : Nat)
    (hinv : HbInv T u) (hT : T ≤ eventTime e) :
    HbInv (eventTime e) (unitStep u e) := by
  cases e with
  | hbE t =>
    constructor
    · intro h
      simp [unitStep, heartbeatUnit] at h
    · intro t0 h0
      have ht0 : t = t0 := by simpa [unitStep, heartbeatUnit] using h0
      subst ht0
      exact ⟨le_refl _, fun _ => rfl⟩
  | checkE t =>
    simp only [unitStep, eventTime] at *
    unfold checkConnectionPersist
    rcases hlh : u.lastHeartbeat with _ | t0
    · exact ⟨fun _ => hinv.1 hlh, fun t1 h1 => by rw [hlh] at h1; cases h1⟩
    · obtain ⟨hle0, hcon0⟩ := hinv.2 t0 hlh
      by_cases hstale : 10 < t - t0
      · by_cases hd : u.connectionStatus = "disconnected"
        · simp only [hstale, if_true, hd, if_true]
          refine ⟨fun _ => hd, fun t1 h1 => ?_⟩
          rw [hlh] at h1
          cases h1
          exact ⟨le_trans hle0 hT, fun hle => absurd hstale (by omega)⟩
        · simp only [hstale, if_true, hd, if_false]
          refine ⟨fun h => rfl, fun t1 h1 => ?_⟩
          have h2 : t0 = t1 := by simpa using h1
          subst h2
          exact ⟨le_trans hle0 hT, fun hle => absurd hstale (by omega)⟩
      · simp only [hstale, if_false]
        refine ⟨fun h => hinv.1 h, fun t1 h1 => ?_⟩
        rw [hlh] at h1
        cases h1
        exact ⟨le_trans hle0 hT, fun _ => hcon0 (by omega)⟩

/-- The last event time is no earlier than the lower bound. -/
theorem lastTime_ge : ∀ (es : List UnitEvent) (lb : Nat),
    TimesMono lb es → lb ≤ lastTime lb es := by
  intro es
  induction es with
  | nil => intro lb _; exact le_refl lb
  | cons e rest ih =>
    intro lb hmono
    exact le_trans hmono.1 (ih (eventTime e) hmono.2)

/-- Running a monotone trace preserves the heartbeat invariant up to the
trace's last event time. -/
theorem HbInv_run : ∀ (es : List UnitEvent) (u : TrainingUnit) (T : Nat),
    HbInv T u → TimesMono T es → HbInv (lastTime T es) (runUnit u es) := by
  intro es
  induction es with
  | nil => intro u T h _; exact h
  | cons e rest ih =>
    intro u T h hmono
    exact ih (unitStep u e) (eventTime e) (HbInv_step u e T h hmono.1) hmono.2

/-- Under the invariant, the surfaced status after a check is `connected`
exactly for a heartbeat at most 10 seconds old. -/
theorem check_connected_iff (now : Nat) (u : TrainingUnit) (hinv : HbInv now u) :
    (checkConnectionStatus now u).connectionStatus = "connected" ↔
      ∃ t, u.lastHeartbeat = some t ∧ now - t ≤ 10 := by
  unfold checkConnectionStatus
  rcases hlh : u.lastHeartbeat with _ | t0
  · simp
  · by_cases hstale : 10 < now - t0
    · simp only [hstale, if_true]
      constructor
      · intro h
        simp at h
      · rintro ⟨t, ht, hle⟩
        have h2 : t0 = t := by simpa using ht
        subst h2
        exact absurd hstale (by omega)
    · simp only [hstale, if_false]
      constructor
      · intro _
        exact ⟨t0, rfl, by omega⟩
      · intro _
        exact (hinv.2 t0 hlh).2 (by omega)

/-- Under the invariant, the surfaced status after a check is
`disconnected` exactly for a missing or stale (strictly over 10 seconds)
heartbeat. -/
theorem check_disconnected_iff (now : Nat) (u : TrainingUnit)
    (hinv : HbInv now u) :
    (checkConnectionStatus now u).connectionStatus = "disconnected" ↔
      (u.lastHeartbeat = none ∨ ∃ t, u.lastHeartbeat = some t ∧ 10 < now - t) := by
  unfold checkConnectionStatus
  rcases hlh : u.lastHeartbeat with _ | t0
  · simp
  · by_cases hstale : 10 < now - t0
    · simp only [hstale, if_true]
      constructor
      · intro _
        exact Or.inr ⟨t0, rfl, hstale⟩
      · intro _
        trivial
    · simp only [hstale, if_false]
      constructor
      · intro h
        rw [(hinv.2 t0 hlh).2 (by omega)] at h
        simp at h
      · rintro (hn | ⟨t, ht, hgt⟩)
        · cases hn
        · have h2 : t0 = t := by simpa using ht
          subst h2
          exact absurd hgt (by omega)

/-- Under the invariant, the persisted row after a check equals the
surfaced row: the NULL branch writes nothing because the stored status is
already `disconnected`, and the stale branch skips the write only when the
stored status already is. -/
theorem check_persist_eq (now : Nat) (u : TrainingUnit) (hinv : HbInv now u) :
    checkConnectionPersist now u = checkConnectionStatus now u := by
  obtain ⟨uid, gid, nm, ds, cfg, ver, st, cs, lh, ow⟩ := u
  unfold checkConnectionPersist checkConnectionStatus
  rcases hlh : lh with _ | t0
  · have hd := hinv.1 (by simpa using hlh)
    simp only [] at hd
    simp [hd]
  · by_cases hstale : 10 < now - t0
    · by_cases hd : cs = "disconnected"
      · simp only [] at hd
        simp [hstale, hd]
      · simp only [] at hd
        simp [hstale, hd]
    · simp [hstale]

/-- Counterexample to claim C6: the claim quantifies over every read path
that surfaces a unit, but `SyncTrainingUnit` returns the unit row as stored
without invoking `checkConnectionStatus`.  On the reachable state
`staleSyncState` (only heartbeat at second 0), a sync read at second 100
surfaces `connected` with a 100-second-old heartbeat, where the claimed
coercion requires `disconnected` -- as the check-performing reads indeed
report on the same row. -/
theorem C6_liveness_counterexample :
    staleSyncState.unit = runUnit (initialUnit "unit_st" "grp_1" "user_1"
      "demo" "" []) [UnitEvent.hbE 0] ∧
    staleSyncState.unit.lastHeartbeat = some 0 ∧
    (syncTrainingUnit staleSyncState 0).unit.connectionStatus = "connected" ∧
    ¬ (syncTrainingUnit staleSyncState 0).unit.connectionStatus
        = "disconnected" ∧
    10 < 100 - 0 ∧
    (checkConnectionStatus 100 staleSyncState.unit).connectionStatus
      = "disconnected" := by
  refine ⟨rfl, by decide, by decide, by decide, by decide, by decide⟩

/-- Claim C6 amended: the heartbeat endpoint writes `last_heartbeat = now`
and `connection_status = connected`; on every unit reachable by heartbeat
and read-path checks with monotone times, a read that invokes
`checkConnectionStatus` (the get and list paths) at time `now` surfaces
`connected` exactly when a heartbeat is recorded at most 10 seconds before
`now` (so a read at the exact 10-second boundary stays `connected`),
surfaces `disconnected` exactly when the heartbeat is missing or strictly
older than 10 seconds, and the persisted row equals the surfaced row; the
sync read path, however, surfaces the unit exactly as stored, with no
liveness coercion, so the iff does not extend to it. -/
theorem C6_liveness_amended :
    (∀ (u : TrainingUnit) (now : Nat),
      (heartbeatUnit now u).lastHeartbeat = some now ∧
      (heartbeatUnit now u).connectionStatus = "connected") ∧
    (∀ uid gid owner nm ds cfg (es : List UnitEvent) (now : Nat)
      (u : TrainingUnit),
      TimesMono 0 es → lastTime 0 es ≤ now →
      u = runUnit (initialUnit uid gid owner nm ds cfg) es →
      ((checkConnectionStatus now u).connectionStatus = "connected" ↔
        ∃ t, u.lastHeartbeat = some t ∧ now - t ≤ 10) ∧
      ((checkConnectionStatus now u).connectionStatus = "disconnected" ↔
        (u.lastHeartbeat = none ∨ ∃ t, u.lastHeartbeat = some t ∧ 10 < now - t)) ∧
      checkConnectionPersist now u = checkConnectionStatus now u) ∧
    (∀ (s : V2State) (cv : Int), (syncTrainingUnit s cv).unit = s.unit) := by
  refine ⟨?_, ?_, ?_⟩
  · intro u now
    exact ⟨rfl, rfl⟩
  · intro uid gid owner nm ds cfg es now u hmono hle hu
    have hinit : HbInv 0 (initialUnit uid gid owner nm ds cfg) :=
      ⟨fun _ => rfl, fun t ht => by simp [initialUnit] at ht⟩
    have hrun := HbInv_run es (initialUnit uid gid owner nm ds cfg) 0 hinit hmono
    have hnow : HbInv now u := hu ▸ HbInv_mono _ _ _ hle hrun
    exact ⟨check_connected_iff now u hnow, check_disconnected_iff now u hnow,
      check_persist_eq now u hnow⟩
  · intro s cv
    rfl

/-- Witness for the hypotheses of `C6_liveness_amended`: a heartbeat at
second 3 read through a check at second 13 -- exactly the 10-second
boundary -- stays connected, while a sync at any time surfaces the stored
row. -/
theorem C6_liveness_amended_witness :
    (heartbeatUnit 3 (initialUnit "u" "g" "o" "n" "d" [])).connectionStatus
      = "connected" ∧
    (checkConnectionStatus 13 (runUnit (initialUnit "u" "g" "o" "n" "d" [])
      [UnitEvent.hbE 3])).connectionStatus = "connected" ∧
    (syncTrainingUnit syncDemo 0).unit = syncDemo.unit := by
  have h1 := (C6_liveness_amended.1 (initialUnit "u" "g" "o" "n" "d" []) 3).2
  have h2 := C6_liveness_amended.2.1 "u" "g" "o" "n" "d" [] [UnitEvent.hbE 3] 13
    (runUnit (initialUnit "u" "g" "o" "n" "d" []) [UnitEvent.hbE 3])
    ⟨Nat.zero_le 3, trivial⟩ (by decide) rfl
  exact ⟨h1, h2.1.mpr ⟨3, rfl, by decide⟩, C6_liveness_amended.2.2 syncDemo 0⟩

/-! ## C4 -- the sliding-window rate limiter -/

/-- Window count of a log with one decided head entry. -/
theorem countAcceptedIn_cons (T t : Int) (b : Bool) (log : List (Int × Bool)) :
    countAcceptedIn T ((t, b) :: log) =
      (if (b && decide (T ≤ t) && decide (t < T + 60)) = true then 1 else 0)
        + countAcceptedIn T log := by
  simp only [countAcceptedIn, List.filter_cons]
  split <;> simp [Nat.add_comm]

/-- The expiry step keeps every timestamp at or after `T` as long as the
request time is inside the window `[T, T + 60)` (and in particular before
its end). -/
theorem wcount_expire (T t : Int) (entries : List Int) (hwin : t < T + 60) :
    wcount T (expireEntries entries t) = wcount T entries := by
  unfold wcount expireEntries
  rw [List.filter_filter]
  congr 1
  refine List.filter_congr ?_
  intro sc _
  by_cases hT : T ≤ sc
  · have hp : t - 60 < sc := by omega
    simp [hT, hp]
  · simp [hT]

/-- Requests at or after the window's end contribute nothing to its count. -/
theorem runRL_no_window (limit : Nat) (T : Int) :
    ∀ (ts entries : List Int), (∀ t ∈ ts, T + 60 ≤ t) →
      countAcceptedIn T (runRL limit entries ts) = 0 := by
  intro ts
  induction ts with
  | nil => intro entries _; rfl
  | cons t rest ih =>
    intro entries hall
    simp only [runRL]
    rw [countAcceptedIn_cons]
    have ht : ¬ (t < T + 60) := by
      have := hall t (List.mem_cons_self _ _)
      omega
    have hrec := ih (checkRateLimit entries limit t).2
      (fun x hx => hall x (List.mem_cons_of_mem _ hx))
    simp [ht, hrec]

/-- Core window bound: processing time-sorted requests, the accepted count
inside any window `[T, T + 60)`, plus the window timestamps already
recorded, stays within the limit (unless the window saw no accepts at
all). -/
theorem runRL_window_bound (limit : Nat) (T : Int) :
    ∀ (ts entries : List Int), List.Sorted (fun a b : Int => a ≤ b) ts →
      countAcceptedIn T (runRL limit entries ts) + wcount T entries ≤ limit ∨
      countAcceptedIn T (runRL limit entries ts) = 0 := by
  intro ts
  induction ts with
  | nil =>
    intro entries _
    right
    rfl
  | cons t rest ih =>
    intro entries hsorted
    obtain ⟨hall, hrest⟩ := List.sorted_cons.mp hsorted
    by_cases hwin : t < T + 60
    · have hwkeep : wcount T (expireEntries entries t) = wcount T entries :=
        wcount_expire T t entries hwin
      have hwle : wcount T (expireEntries entries t)
          ≤ (expireEntries entries t).length :=
        List.length_filter_le _ _
      by_cases hrej : limit ≤ (expireEntries entries t).length
      · -- rejected: the recorded entries only lose stale timestamps
        have hstep : runRL limit entries (t :: rest)
            = (t, false) :: runRL limit (expireEntries entries t) rest := by
          simp only [runRL, checkRateLimit]
          rw [if_pos hrej]
        rw [hstep, countAcceptedIn_cons]
        have hcond : ((false : Bool) && decide (T ≤ t) && decide (t < T + 60))
            = false := by simp
        rw [hcond, if_neg (by simp)]
        rcases ih (expireEntries entries t) hrest with h | h
        · left
          omega
        · right
          omega
      · -- accepted: the request's own timestamp is recorded
        have hstep : runRL limit entries (t :: rest)
            = (t, true) :: runRL limit (expireEntries entries t ++ [t]) rest := by
          simp only [runRL, checkRateLimit]
          rw [if_neg hrej]
        have hwnew : wcount T (expireEntries entries t ++ [t])
            = wcount T (expireEntries entries t)
              + (if T ≤ t then 1 else 0) := by
          unfold wcount
          rw [List.filter_append]
          by_cases hT : T ≤ t <;> simp [hT]
        rw [hstep, countAcceptedIn_cons]
        by_cases hT : T ≤ t
        · -- the accept falls inside the window
          have hcond : ((true : Bool) && decide (T ≤ t) && decide (t < T + 60))
              = true := by simp [hT, hwin]
          rw [hcond, if_pos rfl]
          have hwnew2 : wcount T (expireEntries entries t ++ [t])
              = wcount T entries + 1 := by
            rw [hwnew, hwkeep, if_pos hT]
          rcases ih (expireEntries entries t ++ [t]) hrest with h | h
          · left
            rw [hwnew2] at h
            omega
          · left
            omega
        · -- the accept falls before the window
          have hcond : ((true : Bool) && decide (T ≤ t) && decide (t < T + 60))
              = false := by simp [hT]
          rw [hcond, if_neg (by simp)]
          have hwnew2 : wcount T (expireEntries entries t ++ [t])
              = wcount T entries := by
            rw [hwnew, hwkeep, if_neg hT]
            omega
          rcases ih (expireEntries entries t ++ [t]) hrest with h | h
          · left
            rw [hwnew2] at h
            omega
          · right
            omega
    · -- the whole remaining trace is at or past the window's end
      right
      have hafter : ∀ x ∈ rest, T + 60 ≤ x := by
        intro x hx
        have := hall x hx
        omega
      simp only [runRL]
      rw [countAcceptedIn_cons]
      have hrec := runRL_no_window limit T rest (checkRateLimit entries limit t).2 hafter
      simp [hwin, hrec]

/-- Counterexample to claim C4 as stated: with limit 1 and one request
recorded at second 0, a request at second 60 finds -- per the claim's
wording, which expires only timestamps strictly older than `now - 60` --
one remaining timestamp, so it should be rejected; the code's
`ZREMRANGEBYSCORE` bound is inclusive, removes that timestamp, and accepts
the request. -/
theorem C4_ratelimit_counterexample :
    specExpireOlderThan [(0 : Int)] 60 = [(0 : Int)] ∧
    ¬ (specExpireOlderThan [(0 : Int)] 60).length < 1 ∧
    expireEntries [(0 : Int)] 60 = [] ∧
    (checkRateLimit [(0 : Int)] 1 60).1 = true := by
  refine ⟨by decide, by decide, by decide, by decide⟩

/-- Claim C4 amended: a request is rejected exactly when, after expiring
timestamps aged 60 seconds or more (the inclusive `ZREMRANGEBYSCORE`
bound), the remaining count has reached the limit; an accepted request
appends its own timestamp; over any time-sorted request sequence each
60-second window `[T, T + 60)` sees at most `limit` accepted requests; the
limit is the batch limit on batch endpoints, else premium for the premium
tier, else standard; and a rejection is reported as 429
`RATE_LIMIT_EXCEEDED`. -/
theorem C4_ratelimit_amended :
    (∀ (entries : List Int) (limit : Nat) (now : Int),
      ((checkRateLimit entries limit now).1 = false ↔
        limit ≤ (expireEntries entries now).length)) ∧
    (∀ (entries : List Int) (limit : Nat) (now : Int),
      (checkRateLimit entries limit now).1 = true →
      (checkRateLimit entries limit now).2 = expireEntries entries now ++ [now]) ∧
    (∀ (limit : Nat) (T : Int) (ts : List Int),
      List.Sorted (fun a b : Int => a ≤ b) ts →
      countAcceptedIn T (runRL limit [] ts) ≤ limit) ∧
    (∀ tier bl pl sl, selectLimit true tier bl pl sl = bl) ∧
    (∀ bl pl sl, selectLimit false "premium" bl pl sl = pl) ∧
    (∀ tier bl pl sl, ¬ tier = "premium" →
      selectLimit false tier bl pl sl = sl) ∧
    (∀ (entries : List Int) (limit : Nat) (now : Int),
      (checkRateLimit entries limit now).1 = false →
      rateLimitReply (checkRateLimit entries limit now).1
        = some (429, "RATE_LIMIT_EXCEEDED")) := by
  refine ⟨?_, ?_, ?_, ?_, ?_, ?_, ?_⟩
  · intro entries limit now
    unfold checkRateLimit
    by_cases h : limit ≤ (expireEntries entries now).length <;> simp [h]
  · intro entries limit now hacc
    unfold checkRateLimit at *
    by_cases h : limit ≤ (expireEntries entries now).length
    · rw [if_pos h] at hacc
      cases hacc
    · rw [if_neg h]
  · intro limit T ts hsorted
    rcases runRL_window_bound limit T ts [] hsorted with h | h
    · simpa using h
    · omega
  · intro tier bl pl sl
    rfl
  · intro bl pl sl
    rfl
  · intro tier bl pl sl h
    simp [selectLimit, h]
  · intro entries limit now hrej
    rw [hrej]
    rfl

/-- Witness for the hypotheses of `C4_ratelimit_amended`: scenario S6 with
limit 1 -- accepts at seconds 0 and 61, a rejection at second 30 -- stays
within the bound on the window starting at 0. -/
theorem C4_ratelimit_amended_witness :
    countAcceptedIn 0 (runRL 1 [] [0, 30, 61]) ≤ 1 ∧
    (checkRateLimit [] 5 100).2 = expireEntries [] 100 ++ [100] ∧
    selectLimit false "standard" 20 60 30 = 30 ∧
    rateLimitReply (checkRateLimit [(0 : Int)] 0 30).1
      = some (429, "RATE_LIMIT_EXCEEDED") := by
  refine ⟨?_, ?_, ?_, ?_⟩
  · exact C4_ratelimit_amended.2.2.1 1 0 [0, 30, 61] (by decide)
  · exact C4_ratelimit_amended.2.1 [] 5 100 (by decide)
  · exact C4_ratelimit_amended.2.2.2.2.2.1 "standard" 20 60 30 (by decide)
  · exact C4_ratelimit_amended.2.2.2.2.2.2 [(0 : Int)] 0 30 (by decide)

/-! ## C3 -- the V1 status machine -/

/-- A sorted set carries no member `m` exactly when no entry names it. -/
theorem zMember_eq_false_iff (z : List ZEntry) (m : String) :
    zMember z m = false ↔ ∀ e ∈ z, ¬ e.member = m := by
  simp [zMember, List.any_eq_false]

/-- Removing a member removes it. -/
theorem zMember_zRem_self (z : List ZEntry) (m : String) :
    zMember (zRem z m) m = false := by
  rw [zMember_eq_false_iff]
  intro e he
  have := List.of_mem_filter he
  simpa using this

/-- Filtering a sorted set cannot introduce a member. -/
theorem zMember_filter (z : List ZEntry) (p : ZEntry → Bool) (m : String)
    (h : zMember z m = false) : zMember (z.filter p) m = false := by
  rw [zMember_eq_false_iff] at *
  intro e he
  exact h e (List.mem_of_mem_filter he)

/-- The entry `BZPOPMIN` returns is a member of the set. -/
theorem zMinEntry_mem : ∀ (z : List ZEntry) (e : ZEntry),
    zMinEntry z = some e → e ∈ z := by
  intro z
  induction z with
  | nil => intro e h; cases h
  | cons a as ih =>
    intro e h
    simp only [zMinEntry] at h
    rcases hm : zMinEntry as with _ | m
    · rw [hm] at h
      injection h with h
      subst h
      exact List.mem_cons_self _ _
    · rw [hm] at h
      injection h with h
      subst h
      by_cases hE : zLess a m = true
      · simp only [hE, if_true]
        exact List.mem_cons_self _ _
      · simp only [hE, if_false]
        exact List.mem_cons_of_mem _ (ih m hm)

/-- An id-preserving update keeps "some row has this id". -/
theorem exists_id_map (l : List Task) (g : Task → Task)
    (hg : ∀ t, (g t).id = t.id) (m : String) (h : ∃ t ∈ l, t.id = m) :
    ∃ t ∈ l.map g, t.id = m := by
  obtain ⟨t, ht, hid⟩ := h
  exact ⟨g t, List.mem_map_of_mem g ht, by rw [hg t, hid]⟩

/-- The initial server state satisfies the pipeline invariant. -/
theorem v1Inv_init : V1Inv v1Init := by
  refine ⟨?_, ?_, ?_, ?_, ?_, ?_⟩ <;> intro x hx <;> cases hx

/-- Projection facts for the V1 row updates: ids never change, a row with
another id is untouched, and the written statuses are as stated. -/
theorem setCancelled_id (taskId reason : String) (x : Task) :
    (setCancelled taskId reason x).id = x.id := by
  unfold setCancelled
  split <;> rfl

/-- A cancel save leaves other rows untouched. -/
theorem setCancelled_ne (taskId reason : String) (x : Task)
    (hx : ¬ x.id = taskId) : setCancelled taskId reason x = x := by
  simp [setCancelled, hx]

/-- A cancel save writes status `cancelled`. -/
theorem setCancelled_status (taskId reason : String) (x : Task)
    (hx : x.id = taskId) : (setCancelled taskId reason x).status = "cancelled" := by
  simp [setCancelled, hx]

/-- An upload save keeps the row id. -/
theorem setUploaded_id (taskId : String) (res : JSONB) (art : Option JSONB)
    (now : Nat) (x : Task) : (setUploaded taskId res art now x).id = x.id := by
  unfold setUploaded
  split <;> rfl

/-- An upload save leaves other rows untouched. -/
theorem setUploaded_ne (taskId : String) (res : JSONB) (art : Option JSONB)
    (now : Nat) (x : Task) (hx : ¬ x.id = taskId) :
    setUploaded taskId res art now x = x := by
  simp [setUploaded, hx]

/-- An upload save writes status `completed`. -/
theorem setUploaded_status (taskId : String) (res : JSONB) (art : Option JSONB)
    (now : Nat) (x : Task) (hx : x.id = taskId) :
    (setUploaded taskId res art now x).status = "completed" := by
  simp [setUploaded, hx]

/-- An upload save stamps `completed_at`. -/
theorem setUploaded_completedAt (taskId : String) (res : JSONB)
    (art : Option JSONB) (now : Nat) (x : Task) (hx : x.id = taskId) :
    (setUploaded taskId res art now x).completedAt = some now := by
  simp [setUploaded, hx]

/-- A pickup save keeps the row id. -/
theorem setRunning_id (taskId : String) (now : Nat) (x : Task) :
    (setRunning taskId now x).id = x.id := by
  unfold setRunning
  split <;> rfl

/-- A pickup save leaves other rows untouched. -/
theorem setRunning_ne (taskId : String) (now : Nat) (x : Task)
    (hx : ¬ x.id = taskId) : setRunning taskId now x = x := by
  simp [setRunning, hx]

/-- A pickup save writes status `running`. -/
theorem setRunning_status (taskId : String) (now : Nat) (x : Task)
    (hx : x.id = taskId) : (setRunning taskId now x).status = "running" := by
  simp [setRunning, hx]

/-- A worker-completion save keeps the row id. -/
theorem setWorkerDone_id (taskId : String) (now w : Nat) (x : Task) :
    (setWorkerDone taskId now w x).id = x.id := by
  unfold setWorkerDone
  split <;> rfl

/-- A worker-completion save leaves other rows untouched. -/
theorem setWorkerDone_ne (taskId : String) (now w : Nat) (x : Task)
    (hx : ¬ x.id = taskId) : setWorkerDone taskId now w x = x := by
  simp [setWorkerDone, hx]

/-- A worker-completion save writes status `completed`. -/
theorem setWorkerDone_status (taskId : String) (now w : Nat) (x : Task)
    (hx : x.id = taskId) : (setWorkerDone taskId now w x).status = "completed" := by
  simp [setWorkerDone, hx]

/-- Every V1 operation preserves the pipeline invariant. -/
theorem v1Step_inv (s : V1State) (op : V1Op) (hinv : V1Inv s) :
    V1Inv (v1Step s op) := by
  obtain ⟨i1, i2, i3, i4, i5, i6⟩ := hinv
  cases op with
  | create taskId nm cfg p meta =>
    simp only [v1Step, createTask]
    by_cases hdup : s.tasks.any (fun t => t.id = taskId) = true
    · rw [if_pos hdup]
      exact ⟨i1, i2, i3, i4, i5, i6⟩
    · rw [if_neg hdup]
      have hfresh : ∀ x ∈ s.tasks, ¬ x.id = taskId := by
        have hf : s.tasks.any (fun t => t.id = taskId) = false :=
          Bool.eq_false_iff.mpr hdup
        intro x hx
        simpa using List.any_eq_false.mp hf x hx
      simp only [enqueueTask]
      refine ⟨?_, ?_, ?_, ?_, ?_, ?_⟩
      · intro e he
        rcases List.mem_append.mp he with hl | hr
        · obtain ⟨t0, ht0, hid0⟩ := i1 e (List.mem_of_mem_filter hl)
          exact ⟨t0, List.mem_append_left _ ht0, hid0⟩
        · simp only [List.mem_singleton] at hr
          subst hr
          exact ⟨_, List.mem_append_right _ (List.mem_singleton_self _), rfl⟩
      · intro e he t ht hid
        rcases List.mem_append.mp ht with htl | htr
        · rcases List.mem_append.mp he with hl | hr
          · exact i2 e (List.mem_of_mem_filter hl) t htl hid
          · simp only [List.mem_singleton] at hr
            subst hr
            exact absurd hid (hfresh t htl)
        · simp only [List.mem_singleton] at htr
          subst htr
          exact Or.inl rfl
      · intro m hm
        obtain ⟨t0, ht0, hid0⟩ := i3 m hm
        exact ⟨t0, List.mem_append_left _ ht0, hid0⟩
      · intro m hm t ht hid
        rcases List.mem_append.mp ht with htl | htr
        · exact i4 m hm t htl hid
        · simp only [List.mem_singleton] at htr
          subst htr
          obtain ⟨t0, ht0, hid0⟩ := i3 m hm
          exact absurd (by rw [hid0, ← hid]) (hfresh t0 ht0)
      · intro m hm
        rw [zMember_eq_false_iff]
        intro e he
        rcases List.mem_append.mp he with hl | hr
        · exact (zMember_eq_false_iff _ _).mp
            (zMember_filter _ _ _ (i5 m hm)) e hl
        · simp only [List.mem_singleton] at hr
          subst hr
          obtain ⟨t0, ht0, hid0⟩ := i3 m hm
          intro hc
          exact hfresh t0 ht0 (by rw [hid0, ← hc])
      · intro t ht
        rcases List.mem_append.mp ht with htl | htr
        · exact i6 t htl
        · simp only [List.mem_singleton] at htr
          subst htr
          exact Or.inl rfl
  | pop =>
    simp only [v1Step, popTask]
    rcases hm : zMinEntry s.zset with _ | e
    · simp only [hm]
      exact ⟨i1, i2, i3, i4, i5, i6⟩
    · simp only [hm]
      have hemem : e ∈ s.zset := zMinEntry_mem s.zset e hm
      refine ⟨?_, ?_, ?_, ?_, ?_, i6⟩
      · intro e2 he2
        exact i1 e2 (List.mem_of_mem_filter he2)
      · intro e2 he2 t ht hid
        exact i2 e2 (List.mem_of_mem_filter he2) t ht hid
      · intro m hm2
        rcases List.mem_append.mp hm2 with hl | hr
        · exact i3 m hl
        · simp only [List.mem_singleton] at hr
          subst hr
          exact i1 e hemem
      · intro m hm2 t ht hid
        rcases List.mem_append.mp hm2 with hl | hr
        · exact i4 m hl t ht hid
        · simp only [List.mem_singleton] at hr
          subst hr
          rcases i2 e hemem t ht hid with h | h
          · exact Or.inl h
          · exact Or.inr (Or.inl h)
      · intro m hm2
        rcases List.mem_append.mp hm2 with hl | hr
        · exact zMember_filter _ _ _ (i5 m hl)
        · simp only [List.mem_singleton] at hr
          subst hr
          exact zMember_zRem_self _ _
  | load taskId now =>
    simp only [v1Step, loadTask]
    by_cases hpop : s.popped.contains taskId = true
    · rw [if_pos hpop]
      have hpopmem : taskId ∈ s.popped := by simpa using hpop
      rcases hfind : s.tasks.find? (fun t => t.id = taskId) with _ | t0
      · simp only [hfind]
        refine ⟨i1, i2, ?_, ?_, ?_, i6⟩
        · intro m hm2
          exact i3 m (List.mem_of_mem_filter hm2)
        · intro m hm2 t ht hid
          exact i4 m (List.mem_of_mem_filter hm2) t ht hid
        · intro m hm2
          exact i5 m (List.mem_of_mem_filter hm2)
      · simp only [hfind]
        have hz : zMember s.zset taskId = false := i5 taskId hpopmem
        refine ⟨?_, ?_, ?_, ?_, ?_, ?_⟩
        · intro e he
          exact exists_id_map _ _ (setRunning_id taskId now) _ (i1 e he)
        · intro e he t ht hid
          obtain ⟨t1, ht1, hgt⟩ := List.mem_map.mp ht
          subst hgt
          by_cases hx : t1.id = taskId
          · exfalso
            rw [zMember_eq_false_iff] at hz
            apply hz e he
            rw [← hid, setRunning_id, hx]
          · rw [setRunning_ne taskId now t1 hx]
            apply i2 e he t1 ht1
            rw [← hid, setRunning_id]
        · intro m hm2
          exact exists_id_map _ _ (setRunning_id taskId now) _
            (i3 m (List.mem_of_mem_filter hm2))
        · intro m hm2 t ht hid
          have hmne : ¬ m = taskId := by
            have := List.of_mem_filter hm2
            simpa using this
          obtain ⟨t1, ht1, hgt⟩ := List.mem_map.mp ht
          subst hgt
          by_cases hx : t1.id = taskId
          · exfalso
            apply hmne
            rw [← hid, setRunning_id, hx]
          · rw [setRunning_ne taskId now t1 hx]
            apply i4 m (List.mem_of_mem_filter hm2) t1 ht1
            rw [← hid, setRunning_id]
        · intro m hm2
          exact i5 m (List.mem_of_mem_filter hm2)
        · intro t ht
          obtain ⟨t1, ht1, hgt⟩ := List.mem_map.mp ht
          subst hgt
          by_cases hx : t1.id = taskId
          · rw [setRunning_status taskId now t1 hx]
            exact Or.inr (Or.inl rfl)
          · rw [setRunning_ne taskId now t1 hx]
            exact i6 t1 ht1
    · rw [if_neg hpop]
      exact ⟨i1, i2, i3, i4, i5, i6⟩
  | complete taskId now w =>
    simp only [v1Step, completeTask]
    by_cases hin : s.inFlight.contains taskId = true
    · rw [if_pos hin]
      refine ⟨?_, ?_, ?_, ?_, i5, ?_⟩
      · intro e he
        exact exists_id_map _ _ (setWorkerDone_id taskId now w) _ (i1 e he)
      · intro e he t ht hid
        obtain ⟨t1, ht1, hgt⟩ := List.mem_map.mp ht
        subst hgt
        by_cases hx : t1.id = taskId
        · rw [setWorkerDone_status taskId now w t1 hx]
          exact Or.inr rfl
        · rw [setWorkerDone_ne taskId now w t1 hx]
          apply i2 e he t1 ht1
          rw [← hid, setWorkerDone_id]
      · intro m hm2
        exact exists_id_map _ _ (setWorkerDone_id taskId now w) _ (i3 m hm2)
      · intro m hm2 t ht hid
        obtain ⟨t1, ht1, hgt⟩ := List.mem_map.mp ht
        subst hgt
        by_cases hx : t1.id = taskId
        · rw [setWorkerDone_status taskId now w t1 hx]
          exact Or.inr (Or.inl rfl)
        · rw [setWorkerDone_ne taskId now w t1 hx]
          apply i4 m hm2 t1 ht1
          rw [← hid, setWorkerDone_id]
      · intro t ht
        obtain ⟨t1, ht1, hgt⟩ := List.mem_map.mp ht
        subst hgt
        by_cases hx : t1.id = taskId
        · rw [setWorkerDone_status taskId now w t1 hx]
          exact Or.inr (Or.inr (Or.inl rfl))
        · rw [setWorkerDone_ne taskId now w t1 hx]
          exact i6 t1 ht1
    · rw [if_neg hin]
      exact ⟨i1, i2, i3, i4, i5, i6⟩
  | cancel taskId reason =>
    simp only [v1Step, cancelTaskCore]
    rcases hfind : s.tasks.find? (fun t => t.id = taskId) with _ | t0
    · simp only [hfind]
      exact ⟨i1, i2, i3, i4, i5, i6⟩
    · simp only [hfind]
      by_cases hterm : (t0.status = "completed" || t0.status = "cancelled") = true
      · rw [if_pos hterm]
        exact ⟨i1, i2, i3, i4, i5, i6⟩
      · rw [if_neg hterm]
        refine ⟨?_, ?_, ?_, ?_, ?_, ?_⟩
        · intro e he
          exact exists_id_map _ _ (setCancelled_id taskId reason) _
            (i1 e (List.mem_of_mem_filter he))
        · intro e he t ht hid
          have hene : ¬ e.member = taskId := by
            have := List.of_mem_filter he
            simpa using this
          obtain ⟨t1, ht1, hgt⟩ := List.mem_map.mp ht
          subst hgt
          by_cases hx : t1.id = taskId
          · exfalso
            apply hene
            rw [← hid, setCancelled_id, hx]
          · rw [setCancelled_ne taskId reason t1 hx]
            apply i2 e (List.mem_of_mem_filter he) t1 ht1
            rw [← hid, setCancelled_id]
        · intro m hm2
          exact exists_id_map _ _ (setCancelled_id taskId reason) _ (i3 m hm2)
        · intro m hm2 t ht hid
          obtain ⟨t1, ht1, hgt⟩ := List.mem_map.mp ht
          subst hgt
          by_cases hx : t1.id = taskId
          · rw [setCancelled_status taskId reason t1 hx]
            exact Or.inr (Or.inr rfl)
          · rw [setCancelled_ne taskId reason t1 hx]
            apply i4 m hm2 t1 ht1
            rw [← hid, setCancelled_id]
        · intro m hm2
          exact zMember_filter _ _ _ (i5 m hm2)
        · intro t ht
          obtain ⟨t1, ht1, hgt⟩ := List.mem_map.mp ht
          subst hgt
          by_cases hx : t1.id = taskId
          · rw [setCancelled_status taskId reason t1 hx]
            exact Or.inr (Or.inr (Or.inr rfl))
          · rw [setCancelled_ne taskId reason t1 hx]
            exact i6 t1 ht1
  | upload taskId res art now =>
    simp only [v1Step, uploadResult]
    rcases hfind : s.tasks.find? (fun t => t.id = taskId) with _ | t0
    · simp only [hfind]
      exact ⟨i1, i2, i3, i4, i5, i6⟩
    · simp only [hfind]
      refine ⟨?_, ?_, ?_, ?_, i5, ?_⟩
      · intro e he
        exact exists_id_map _ _ (setUploaded_id taskId res art now) _ (i1 e he)
      · intro e he t ht hid
        obtain ⟨t1, ht1, hgt⟩ := List.mem_map.mp ht
        subst hgt
        by_cases hx : t1.id = taskId
        · rw [setUploaded_status taskId res art now t1 hx]
          exact Or.inr rfl
        · rw [setUploaded_ne taskId res art now t1 hx]
          apply i2 e he t1 ht1
          rw [← hid, setUploaded_id]
      · intro m hm2
        exact exists_id_map _ _ (setUploaded_id taskId res art now) _ (i3 m hm2)
      · intro m hm2 t ht hid
        obtain ⟨t1, ht1, hgt⟩ := List.mem_map.mp ht
        subst hgt
        by_cases hx : t1.id = taskId
        · rw [setUploaded_status taskId res art now t1 hx]
          exact Or.inr (Or.inl rfl)
        · rw [setUploaded_ne taskId res art now t1 hx]
          apply i4 m hm2 t1 ht1
          rw [← hid, setUploaded_id]
      · intro t ht
        obtain ⟨t1, ht1, hgt⟩ := List.mem_map.mp ht
        subst hgt
        by_cases hx : t1.id = taskId
        · rw [setUploaded_status taskId res art now t1 hx]
          exact Or.inr (Or.inr (Or.inl rfl))
        · rw [setUploaded_ne taskId res art now t1 hx]
          exact i6 t1 ht1

/-- Runs from an invariant state stay invariant. -/
theorem v1Run_inv : ∀ (ops : List V1Op) (s : V1State),
    V1Inv s → V1Inv (v1Run s ops) := by
  intro ops
  induction ops with
  | nil => intro s h; exact h
  | cons op rest ih =>
    intro s h
    exact ih (v1Step s op) (v1Step_inv s op h)

/-- The allowed-transition table accepts stuttering. -/
theorem v1Allowed_refl (a : String) : v1Allowed a a = true := by
  simp [v1Allowed]

/-- The allowed-transition table accepts any move into `completed`. -/
theorem v1Allowed_completed (a : String) : v1Allowed a "completed" = true := by
  simp [v1Allowed]

/-- One step out of an invariant state only makes allowed status moves. -/
theorem v1Step_allowed (s : V1State) (op : V1Op) (hinv : V1Inv s)
    (x a b : String)
    (ha : statusOf s x = some a)
    (hb : statusOf (v1Step s op) x = some b) :
    v1Allowed a b = true := by
  obtain ⟨i1, i2, i3, i4, i5, i6⟩ := hinv
  have hfound : ∃ t, s.tasks.find? (fun t => t.id = x) = some t ∧ t.status = a := by
    unfold statusOf at ha
    rcases hf : s.tasks.find? (fun t => t.id = x) with _ | t
    · rw [hf] at ha; cases ha
    · rw [hf] at ha
      refine ⟨t, hf, ?_⟩
      simpa using ha
  obtain ⟨t, hf, hst⟩ := hfound
  have htx : t.id = x := by simpa using List.find?_some hf
  have htm : t ∈ s.tasks := List.mem_of_find?_eq_some hf
  cases op with
  | create taskId nm cfg p meta =>
    simp only [v1Step, createTask] at hb
    by_cases hdup : s.tasks.any (fun t => t.id = taskId) = true
    · rw [if_pos hdup] at hb
      have hb2 : statusOf s x = some b := hb
      rw [ha] at hb2
      injection hb2 with hb2
      rw [← hb2]
      exact v1Allowed_refl _
    · rw [if_neg hdup] at hb
      simp only [enqueueTask, statusOf, List.find?_append, hf] at hb
      simp only [Option.or] at hb
      have hb2 : t.status = b := by simpa using hb
      rw [← hb2, hst]
      exact v1Allowed_refl _
  | pop =>
    simp only [v1Step, popTask] at hb
    rcases hm : zMinEntry s.zset with _ | e
    · rw [hm] at hb
      have hb2 : statusOf s x = some b := hb
      rw [ha] at hb2
      injection hb2 with hb2
      rw [← hb2]
      exact v1Allowed_refl _
    · rw [hm] at hb
      have hb2 : statusOf s x = some b := hb
      rw [ha] at hb2
      injection hb2 with hb2
      rw [← hb2]
      exact v1Allowed_refl _
  | load taskId now =>
    simp only [v1Step, loadTask] at hb
    by_cases hpop : s.popped.contains taskId = true
    · rw [if_pos hpop] at hb
      have hpopmem : taskId ∈ s.popped := by simpa using hpop
      rcases hfind : s.tasks.find? (fun t => t.id = taskId) with _ | t0
      · simp only [hfind] at hb
        have hb2 : statusOf s x = some b := hb
        rw [ha] at hb2
        injection hb2 with hb2
        rw [← hb2]
        exact v1Allowed_refl _
      · simp only [hfind] at hb
        simp only [statusOf] at hb
        rw [find?_id_map _ _ (setRunning_id taskId now) x, hf] at hb
        have hb2 : (setRunning taskId now t).status = b := by simpa using hb
        by_cases hx : t.id = taskId
        · rw [setRunning_status taskId now t hx] at hb2
          have hallowed := i4 taskId hpopmem t htm hx
          rw [hst] at hallowed
          rcases hallowed with h | h | h <;> subst h <;> rw [← hb2] <;>
            simp [v1Allowed, dagEdge]
        · rw [setRunning_ne taskId now t hx] at hb2
          rw [← hb2, hst]
          exact v1Allowed_refl _
    · rw [if_neg hpop] at hb
      have hb2 : statusOf s x = some b := hb
      rw [ha] at hb2
      injection hb2 with hb2
      rw [← hb2]
      exact v1Allowed_refl _
  | complete taskId now w =>
    simp only [v1Step, completeTask] at hb
    by_cases hin : s.inFlight.contains taskId = true
    · rw [if_pos hin] at hb
      simp only [statusOf] at hb
      rw [find?_id_map _ _ (setWorkerDone_id taskId now w) x, hf] at hb
      have hb2 : (setWorkerDone taskId now w t).status = b := by simpa using hb
      by_cases hx : t.id = taskId
      · rw [setWorkerDone_status taskId now w t hx] at hb2
        rw [← hb2]
        exact v1Allowed_completed _
      · rw [setWorkerDone_ne taskId now w t hx] at hb2
        rw [← hb2, hst]
        exact v1Allowed_refl _
    · rw [if_neg hin] at hb
      have hb2 : statusOf s x = some b := hb
      rw [ha] at hb2
      injection hb2 with hb2
      rw [← hb2]
      exact v1Allowed_refl _
  | cancel taskId reason =>
    simp only [v1Step, cancelTaskCore] at hb
    rcases hfind : s.tasks.find? (fun t => t.id = taskId) with _ | t0
    · simp only [hfind] at hb
      have hb2 : statusOf s x = some b := hb
      rw [ha] at hb2
      injection hb2 with hb2
      rw [← hb2]
      exact v1Allowed_refl _
    · simp only [hfind] at hb
      by_cases hterm : (t0.status = "completed" || t0.status = "cancelled") = true
      · rw [if_pos hterm] at hb
        have hb2 : statusOf s x = some b := hb
        rw [ha] at hb2
        injection hb2 with hb2
        rw [← hb2]
        exact v1Allowed_refl _
      · rw [if_neg hterm] at hb
        simp only [statusOf] at hb
        rw [find?_id_map _ _ (setCancelled_id taskId reason) x, hf] at hb
        have hb2 : (setCancelled taskId reason t).status = b := by simpa using hb
        by_cases hx : t.id = taskId
        · rw [setCancelled_status taskId reason t hx] at hb2
          -- the cancelled row is the one the guard inspected
          have ht0 : t = t0 := by
            rw [hx] at htx
            rw [htx] at hfind
            rw [hf] at hfind
            injection hfind
          have hterm2 : ¬ (t.status = "completed" || t.status = "cancelled") = true := by
            rw [ht0]
            exact hterm
          have h4 := i6 t htm
          rw [hst] at h4
          rw [hst] at hterm2
          rcases h4 with h | h | h | h
          · subst h; rw [← hb2]; simp [v1Allowed, dagEdge]
          · subst h; rw [← hb2]; simp [v1Allowed, dagEdge]
          · subst h; simp at hterm2
          · subst h; simp at hterm2
        · rw [setCancelled_ne taskId reason t hx] at hb2
          rw [← hb2, hst]
          exact v1Allowed_refl _
  | upload taskId res art now =>
    simp only [v1Step, uploadResult] at hb
    rcases hfind : s.tasks.find? (fun t => t.id = taskId) with _ | t0
    · simp only [hfind] at hb
      have hb2 : statusOf s x = some b := hb
      rw [ha] at hb2
      injection hb2 with hb2
      rw [← hb2]
      exact v1Allowed_refl _
    · simp only [hfind] at hb
      simp only [statusOf] at hb
      rw [find?_id_map _ _ (setUploaded_id taskId res art now) x, hf] at hb
      have hb2 : (setUploaded taskId res art now t).status = b := by simpa using hb
      by_cases hx : t.id = taskId
      · rw [setUploaded_status taskId res art now t hx] at hb2
        rw [← hb2]
        exact v1Allowed_completed _
      · rw [setUploaded_ne taskId res art now t hx] at hb2
        rw [← hb2, hst]
        exact v1Allowed_refl _

/-- Counterexample to claim C3 as stated: a freshly created (queued) task
whose result is uploaded goes `queued → completed` directly -- not an edge
of the spec's DAG. -/
theorem C3_status_machine_counterexample :
    statusOf uploadDemo0 "t1" = some "queued" ∧
    uploadDemo1 = v1Step uploadDemo0 (V1Op.upload "t1" [] none 5) ∧
    statusOf uploadDemo1 "t1" = some "completed" ∧
    dagEdge "queued" "completed" = false := by
  refine ⟨by decide, rfl, by decide, by decide⟩

/-- Claim C3 amended: over any sequence of the listed V1 operations, every
persisted status move is either a DAG edge, or a move into `completed`
(upload-result from any status; the worker's completion overwriting a
concurrent cancel), or a pickup of a popped task that was
completed-by-upload or cancelled in the pop window
(completed / cancelled → running); `failed` never occurs (the simulated
worker hardcodes success). -/
theorem C3_status_machine_amended :
    (∀ (ops : List V1Op) (op : V1Op) (taskId a b : String),
      statusOf (v1Run v1Init ops) taskId = some a →
      statusOf (v1Step (v1Run v1Init ops) op) taskId = some b →
      v1Allowed a b = true) ∧
    (∀ (ops : List V1Op) (taskId : String),
      ¬ statusOf (v1Run v1Init ops) taskId = some "failed") := by
  constructor
  · intro ops op taskId a b ha hb
    exact v1Step_allowed (v1Run v1Init ops) op
      (v1Run_inv ops v1Init v1Inv_init) taskId a b ha hb
  · intro ops taskId hfail
    have hinv := v1Run_inv ops v1Init v1Inv_init
    unfold statusOf at hfail
    rcases hf : (v1Run v1Init ops).tasks.find? (fun t => t.id = taskId) with _ | t
    · rw [hf] at hfail; cases hfail
    · rw [hf] at hfail
      have hstat : t.status = "failed" := by simpa using hfail
      have := hinv.2.2.2.2.2 t (List.mem_of_find?_eq_some hf)
      rw [hstat] at this
      rcases this with h | h | h | h <;> exact absurd h (by decide)

/-- Witness for the hypotheses of `C3_status_machine_amended`: the
`queued → cancelled` move of a concrete create-then-cancel run is in the
allowed table. -/
theorem C3_status_machine_amended_witness :
    v1Allowed "queued" "cancelled" = true :=
  C3_status_machine_amended.1 [V1Op.create "t1" "job" [] 0 []]
    (V1Op.cancel "t1" "stop") "t1" "queued" "cancelled" (by decide) (by decide)

/-! ## C10 -- cancel with a failed JSON bind -/

/-- Claim C10: when the cancel request body fails binding, the handler
returns without writing any response, and neither the task rows nor the
queue index nor the membership set change. -/
theorem C10_cancel_bind_failure (s : V1State) (taskId : String) :
    (cancelTaskHandler s taskId none).1.tasks = s.tasks ∧
    (cancelTaskHandler s taskId none).1.zset = s.zset ∧
    (cancelTaskHandler s taskId none).1.memberSet = s.memberSet ∧
    (cancelTaskHandler s taskId none).2 = none :=
  ⟨rfl, rfl, rfl, rfl⟩

/-! ## C2 -- the sync response ordering -/

/-- Claim C2 is a code bug: `SyncTrainingUnit` orders its queue query by
`priority DESC, created_at ASC`, but `training_queues` has no `priority`
column, so the query errors out and -- the handler ignoring the error --
the response always carries an empty queue list instead of the rows in
`order ASC` (the ordering every other queue read path uses). -/
theorem C2_sync_order_bug :
    (∀ s cv, (syncTrainingUnit s cv).queues = []) ∧
    syncOrderByColumns.contains "priority" = true ∧
    trainingQueueColumns.contains "priority" = false ∧
    syncQueueQuery (unitQueues syncDemo) =
      Except.error "column priority does not exist" ∧
    (sortQueuesByOrderAsc (unitQueues syncDemo)).map (fun q => q.id) =
      ["queue_a", "queue_b"] ∧
    ¬ (syncTrainingUnit syncDemo 0).queues =
        sortQueuesByOrderAsc (unitQueues syncDemo) := by
  refine ⟨fun s cv => rfl, rfl, rfl, by rfl, by decide, by decide⟩

/-! ## C5 -- queue position (rank) -/

/-- Counterexample to claim C5: a task present in the index at the front
(0-indexed position 0) is reported at position 1, so `GetQueuePosition`
does not return the 0-indexed rank. -/
theorem C5_rank_counterexample :
    (zAdd [] "task_a" (-1)).find? (fun e => e.member = "task_a") =
      some { member := "task_a", score := -1 } ∧
    zrankNat (zAdd [] "task_a" (-1)) { member := "task_a", score := -1 } = 0 ∧
    getQueuePosition (zAdd [] "task_a" (-1)) "task_a" = 1 ∧
    ¬ getQueuePosition (zAdd [] "task_a" (-1)) "task_a" = 0 := by
  refine ⟨by decide, by decide, by decide, by decide⟩

/-- Claim C5 amended: `GetQueuePosition` returns `-1` for an absent task
and the 1-indexed position (`ZRANK` plus one) for a present one; in the
priority 1 / 5 / 3 scenario the reported positions are 1, 2, 3 for the
priority-5, priority-3 and priority-1 tasks. -/
theorem C5_rank_amended :
    (∀ z m, z.find? (fun e => e.member = m) = none →
      getQueuePosition z m = -1) ∧
    (∀ z m e, z.find? (fun e2 => e2.member = m) = some e →
      getQueuePosition z m = Int.ofNat (zrankNat z e) + 1) ∧
    ((createTask prioState2 "task_c" "job-c" [] 3 []).2 = some 2 ∧
     getQueuePosition prioState3.zset "task_b" = 1 ∧
     getQueuePosition prioState3.zset "task_c" = 2 ∧
     getQueuePosition prioState3.zset "task_a" = 3) := by
  refine ⟨fun z m h => ?_, fun z m e h => ?_, by decide, by decide, by decide, by decide⟩
  · simp only [getQueuePosition, h]
  · simp only [getQueuePosition, h]

/-- Witness for the hypotheses of `C5_rank_amended` at concrete inputs. -/
theorem C5_rank_amended_witness :
    getQueuePosition [] "task_x" = -1 ∧
    getQueuePosition (zAdd [] "task_a" (-2)) "task_a" =
      Int.ofNat (zrankNat (zAdd [] "task_a" (-2)) { member := "task_a", score := -2 }) + 1 :=
  ⟨C5_rank_amended.1 [] "task_x" rfl,
   C5_rank_amended.2.1 (zAdd [] "task_a" (-2)) "task_a"
     { member := "task_a", score := -2 } rfl⟩

/-! ## C8 -- creation order values -/

/-- Claim C8: a created queue receives `order = MAX(existing order) + 1`
(0 for an empty unit, since the query coalesces to -1), where
`maxOrderOf` is exactly the maximum of the unit's orders; and a batch of k
fresh items receives orders `maxOrder + 1 .. maxOrder + k` in the supplied
order, all items created. -/
theorem C8_create_order :
    (∀ s qid nm ps cb, s.queues.any (fun q => q.id = qid) = false →
      orderOfId (createTrainingQueue s qid nm ps cb).1.queues qid
        = some (maxOrderOf (unitQueues s) + 1)) ∧
    (∀ s qid nm ps cb, s.queues.any (fun q => q.id = qid) = false →
      unitQueues s = [] →
      orderOfId (createTrainingQueue s qid nm ps cb).1.queues qid = some 0) ∧
    (∀ qs (q : TrainingQueue), q ∈ qs → q.order ≤ maxOrderOf qs) ∧
    (∀ qs : List TrainingQueue, ¬ qs = [] → ∃ q ∈ qs, maxOrderOf qs = q.order) ∧
    (∀ s items cb,
      (∀ p ∈ items, s.queues.any (fun q => q.id = p.1) = false) →
      (items.map (fun p => p.1)).Nodup →
      (∀ i (hi : i < items.length),
        orderOfId (batchCreateQueues s items cb).1.queues ((items.get ⟨i, hi⟩).1)
          = some (maxOrderOf (unitQueues s) + 1 + Int.ofNat i)) ∧
      (batchCreateQueues s items cb).2 = items.map (fun p => p.1)) := by
  have hcreate : ∀ (s : V2State) qid nm ps cb,
      s.queues.any (fun q => q.id = qid) = false →
      orderOfId (createTrainingQueue s qid nm ps cb).1.queues qid
        = some (maxOrderOf (unitQueues s) + 1) := by
    intro s qid nm ps cb h
    have hq : ∀ x ∈ s.queues, ¬ x.id = qid := by simpa using h
    have hnone : s.queues.find? (fun q => q.id = qid) = none :=
      List.find?_eq_none.mpr (fun x hx => by simpa using hq x hx)
    simp only [createTrainingQueue, h, Bool.false_eq_true, if_false]
    simp only [orderOfId, List.find?_append, hnone]
    simp
  refine ⟨hcreate, ?_, maxOrderOf_ge, maxOrderOf_mem, ?_⟩
  · intro s qid nm ps cb h hempty
    have := hcreate s qid nm ps cb h
    rw [hempty] at this
    simpa using this
  · intro s items cb hfresh hnd
    constructor
    · intro i hi
      have := batchLoop_orders s.unit.id s.unit.userId
        (if cb = "" then "web" else cb) items s.queues
        (maxOrderOf (unitQueues s) + 1) hfresh hnd i hi
      simpa [batchCreateQueues, orderOfId] using this
    · have := batchLoop_ids s.unit.id s.unit.userId
        (if cb = "" then "web" else cb) items s.queues
        (maxOrderOf (unitQueues s) + 1) hfresh hnd
      simpa [batchCreateQueues] using this

/-- Witness for the hypotheses of `C8_create_order` at concrete inputs:
appending to a unit with orders 0 and 1 yields order 2, a create into an
empty unit yields order 0, and a fresh 2-item batch gets orders 2 and 3. -/
theorem C8_create_order_witness :
    orderOfId (createTrainingQueue syncDemo "queue_c" "third" [] "web").1.queues
      "queue_c" = some (maxOrderOf (unitQueues syncDemo) + 1) ∧
    orderOfId (createTrainingQueue (v2Init "u" "g" "o" "n" "" [])
      "queue_a" "first" [] "web").1.queues "queue_a" = some 0 ∧
    orderOfId (batchCreateQueues syncDemo [("b1", "x", []), ("b2", "y", [])]
      "client").1.queues "b2" = some (maxOrderOf (unitQueues syncDemo) + 1 + Int.ofNat 1) ∧
    (batchCreateQueues syncDemo [("b1", "x", []), ("b2", "y", [])] "client").2
      = ["b1", "b2"] := by
  refine ⟨?_, ?_, ?_, ?_⟩
  · exact C8_create_order.1 syncDemo "queue_c" "third" [] "web" (by decide)
  · exact C8_create_order.2.1 (v2Init "u" "g" "o" "n" "" [])
      "queue_a" "first" [] "web" (by decide) (by decide)
  · exact (C8_create_order.2.2.2.2 syncDemo [("b1", "x", []), ("b2", "y", [])]
      "client" (by decide) (by decide)).1 1 (by decide)
  · exact (C8_create_order.2.2.2.2 syncDemo [("b1", "x", []), ("b2", "y", [])]
      "client" (by decide) (by decide)).2

/-! ## C9 -- upload-result frame effects -/

/-- Claim C9: `UploadResult` sets `status = completed` and stamps
`completed_at` whatever the prior status was, and touches neither the
priority index nor the membership set nor the worker pipeline; a task whose
result was uploaded while still queued stays in the index and is later
popped and marked `running` by a worker. -/
theorem C9_upload_frame :
    (∀ s taskId res art now t,
      s.tasks.find? (fun x => x.id = taskId) = some t →
      statusOf (uploadResult s taskId res art now).1 taskId = some "completed" ∧
      completedAtOf (uploadResult s taskId res art now).1 taskId = some (some now) ∧
      (uploadResult s taskId res art now).1.zset = s.zset ∧
      (uploadResult s taskId res art now).1.memberSet = s.memberSet ∧
      (uploadResult s taskId res art now).1.popped = s.popped ∧
      (uploadResult s taskId res art now).1.inFlight = s.inFlight) ∧
    (statusOf uploadDemo1 "t1" = some "completed" ∧
     zMember uploadDemo1.zset "t1" = true ∧
     uploadDemo1.memberSet = ["t1"] ∧
     statusOf uploadDemo3 "t1" = some "running") := by
  refine ⟨fun s taskId res art now t h => ?_, by decide, by decide, by decide, by decide⟩
  have ht : t.id = taskId := by simpa using List.find?_some h
  have hg : ∀ x : Task, (setUploaded taskId res art now x).id = x.id :=
    setUploaded_id taskId res art now
  refine ⟨?_, ?_, ?_, ?_, ?_, ?_⟩
  · simp only [statusOf, uploadResult, h]
    rw [find?_id_map _ _ hg, h]
    simp [setUploaded, ht]
  · simp only [completedAtOf, uploadResult, h]
    rw [find?_id_map _ _ hg, h]
    simp [setUploaded, ht]
  · simp [uploadResult, h]
  · simp [uploadResult, h]
  · simp [uploadResult, h]
  · simp [uploadResult, h]

/-- Witness for the hypothesis of `C9_upload_frame` at a concrete state. -/
theorem C9_upload_frame_witness :
    statusOf (uploadResult uploadDemo0 "t1" [] none 5).1 "t1" = some "completed" ∧
    (uploadResult uploadDemo0 "t1" [] none 5).1.zset = uploadDemo0.zset := by
  have h := C9_upload_frame.1 uploadDemo0 "t1" [] none 5
    { id := "t1", name := "job", config := [], priority := 0
      status := "queued", metadata := [], result := none, errorMessage := ""
      startedAt := none, completedAt := none, userId := "" } (by decide)
  exact ⟨h.1, h.2.2.1⟩

end MLQueue
